import Mathlib

/-
Verification development for the flow-direction network core (pyflwdir/core.py).

The source operates on numpy arrays of unsigned 32-bit sparse cell indices with
a reserved sentinel `_mv = np.uint32(-1)`.  Arrays are embedded as `List Nat`
(values are always < 2^32 in the source); 8-bit counters are embedded with an
explicit `% 256`.  Out-of-bounds writes, which are undefined behaviour in the
njit (bounds-check-free) source, are embedded as no-ops via `List.set`, and
out-of-bounds reads default to the sentinel.  Fallible operations (functions
that `raise ValueError`) return `Except String`.
-/

/-- Sentinel value `_mv = np.uint32(-1)`, i.e. 2^32 - 1, marking "no index". -/
def _mv : Nat := 2 ^ 32 - 1

/-- Array read `xs[i]` for a sparse-index array; an out-of-range read (undefined
behaviour in the njit source) yields the sentinel. -/
def nth (xs : List Nat) (i : Nat) : Nat := xs.getD i _mv

/-- `n_upstream(idxs_ds)`: the number of upstream cells per cell, accumulated in
`np.uint8` counters, so each increment is taken modulo 256 (dtype `np.uint8` in
the source). -/
def n_upstream (idxs_ds : List Nat) : List Nat :=
  (List.range idxs_ds.length).foldl
    (fun n_up i =>
      let i_ds := nth idxs_ds i
      if i ≠ i_ds then n_up.set i_ds ((n_up.getD i_ds 0 + 1) % 256) else n_up)
    (List.replicate idxs_ds.length 0)

/-- One iteration of the placement scan of `_idxs_us`: for a non-pit cell `i`,
place `i` into slot `n_up[i_ds]` of row `i_ds` and bump the `np.uint8` slot
counter. -/
def usStep (idxs_ds : List Nat) (s : List (List Nat) × List Nat) (i : Nat) :
    List (List Nat) × List Nat :=
  let i_ds := nth idxs_ds i
  if i_ds = i then s
  else
    let ii := s.2.getD i_ds 0
    (s.1.set i_ds ((s.1.getD i_ds []).set ii i), s.2.set i_ds ((ii + 1) % 256))

/-- `_idxs_us(idxs_ds)`: the `n × d` upstream table, `d = np.max(n_upstream)`,
rows initialised to the sentinel and filled by a second scan that re-uses the
zeroed `np.uint8` counters as next-free-slot indices. -/
def _idxs_us (idxs_ds : List Nat) : List (List Nat) :=
  let n_up := n_upstream idxs_ds
  let d := n_up.foldl max 0
  let n := idxs_ds.length
  ((List.range n).foldl (usStep idxs_ds)
    (List.replicate n (List.replicate d _mv), List.replicate n 0)).1

/-- `upstream(idx0, idxs_us)`: the rows of the given cells, flattened
(`.ravel()`) and with sentinel entries filtered out. -/
def upstream (idx0 : List Nat) (idxs_us : List (List Nat)) : List Nat :=
  ((idx0.map (fun i => idxs_us.getD i [])).flatten).filter (fun j => j != _mv)

/-- The `while True` loop of `network_tree`, made total with a fuel argument;
the fuel chosen in `network_tree` dominates the number of iterations the source
loop performs whenever that loop terminates at all (proved below for forest
inputs). -/
def networkTreeGo (idxs_us : List (List Nat)) : Nat → List Nat → List (List Nat)
  | 0, _ => []
  | fuel + 1, idxs =>
    let idxs_us0 := upstream idxs idxs_us
    if idxs_us0 = [] then [] else idxs_us0 :: networkTreeGo idxs_us fuel idxs_us0

/-- `network_tree(idxs_pits, idxs_us)`: level 0 is the pit array itself; each
further level is the `upstream` expansion of the previous one, stopping the
first time that expansion is empty. -/
def network_tree (idxs_pits : List Nat) (idxs_us : List (List Nat)) :
    List (List Nat) :=
  idxs_pits :: networkTreeGo idxs_us (idxs_us.length + 1) idxs_pits

/-- `pit_indices(idxs_ds)`: cells whose downstream cell is the cell itself, in
ascending order. -/
def pit_indices (idxs_ds : List Nat) : List Nat :=
  (List.range idxs_ds.length).filter (fun idx0 => idx0 == nth idxs_ds idx0)

/-- Numpy fancy assignment `no_loop[idxs_us0] = ~no_loop[idxs_us0]`: every
position listed in `u` is negated once (the right-hand side is evaluated before
the assignment, so duplicate positions do not toggle twice). -/
def npFlip (u : List Nat) : List Bool → Nat → List Bool
  | [], _ => []
  | b :: rest, j => (if u.contains j then !b else b) :: npFlip u rest (j + 1)

/-- Numpy fancy assignment `no_loop[idxs] = True`. -/
def npSetTrue (a : List Bool) (idxs : List Nat) : List Bool :=
  idxs.foldl (fun a j => a.set j true) a

/-- The `while True` loop of `loop_indices`, made total with a fuel argument
(see `networkTreeGo`). -/
def loopIndicesGo (idxs_us : List (List Nat)) :
    Nat → List Nat → List Bool → List Bool
  | 0, _, no_loop => no_loop
  | fuel + 1, idxs_ds0, no_loop =>
    let idxs_us0 := upstream idxs_ds0 idxs_us
    if idxs_us0 = [] then no_loop
    else loopIndicesGo idxs_us fuel idxs_us0 (npFlip idxs_us0 no_loop 0)

/-- `loop_indices(idxs_ds, idxs_us)`: `no_loop` starts as `idxs_ds == _mv`,
pits are marked `True`, the pit-seeded upstream frontier is expanded and each
frontier is toggled, and finally `np.where(~no_loop)[0]` is returned.  (The
source guards the pit assignment by `idxs_ds0.size > 0`; assigning along an
empty index list is the identity, so the guard is dropped.) -/
def loop_indices (idxs_ds : List Nat) (idxs_us : List (List Nat)) : List Nat :=
  (List.range idxs_ds.length).filter (fun i =>
    !((loopIndicesGo idxs_us (idxs_ds.length + 1) (pit_indices idxs_ds)
        (npSetTrue (idxs_ds.map (fun j => j == _mv)) (pit_indices idxs_ds))).getD
      i true))

/-- `downstream(idx0, idxs_ds)`: single-hop downstream lookup. -/
def downstream (idx0 : Nat) (idxs_ds : List Nat) : Nat := nth idxs_ds idx0

/-- The `while True` loop of `downstream_path`, made total with a fuel
argument (see `networkTreeGo`). -/
def downstreamPathGo (idxs_ds : List Nat) : Nat → Nat → List Nat
  | 0, _ => []
  | fuel + 1, idx0 =>
    let idx_ds := nth idxs_ds idx0
    if idx0 = idx_ds then [] else idx_ds :: downstreamPathGo idxs_ds fuel idx_ds

/-- `downstream_path(idx0, idxs_ds)`: the start cell followed by repeated
single-hop downstream lookups, stopping when a cell targets itself. -/
def downstream_path (idx0 : Nat) (idxs_ds : List Nat) : List Nat :=
  idx0 :: downstreamPathGo idxs_ds (idxs_ds.length + 1) idx0

/-- The scan of `_main_upstream`: walk the row, break at the first sentinel,
and keep an entry whenever its upstream area is `>=` the running threshold
(which starts at `upa_min`).  Upstream-area values are embedded as rationals. -/
def mainUpGo (uparea_sparse : List ℚ) : List Nat → Nat → ℚ → Nat
  | [], idx_us0, _ => idx_us0
  | idx_us :: rest, idx_us0, upa0 =>
    if idx_us = _mv then idx_us0
    else if upa0 ≤ uparea_sparse.getD idx_us 0 then
      mainUpGo uparea_sparse rest idx_us (uparea_sparse.getD idx_us 0)
    else mainUpGo uparea_sparse rest idx_us0 upa0

/-- `_main_upstream(idx0, idxs_us, uparea_sparse, upa_min)`: index of the
upstream cell of `idx0` with the largest upstream area `>= upa_min`. -/
def _main_upstream (idx0 : Nat) (idxs_us : List (List Nat))
    (uparea_sparse : List ℚ) (upa_min : ℚ) : Nat :=
  mainUpGo uparea_sparse (idxs_us.getD idx0 []) _mv upa_min

/-- `main_upstream(idxs, idxs_us, uparea_sparse, upa_min)`: vectorised
`_main_upstream`, raising `ValueError` when the upstream-area array does not
have one value per row of the upstream table. -/
def main_upstream (idxs : List Nat) (idxs_us : List (List Nat))
    (uparea_sparse : List ℚ) (upa_min : ℚ) : Except String (List Nat) :=
  if idxs_us.length ≠ uparea_sparse.length then
    Except.error "uparea_sparse has invalid size"
  else
    Except.ok (idxs.map (fun i => _main_upstream i idxs_us uparea_sparse upa_min))

/-- Numpy fancy assignment `idxs_sparse[idxs_dense] = arange(idxs_dense.size)`,
written as a left-to-right scan (later duplicate positions win, as in numpy). -/
def lutGo : List Nat → List Nat → Nat → List Nat
  | a, [], _ => a
  | a, d :: rest, k => lutGo (a.set d k) rest (k + 1)

/-- `_sparse_idx(idxs, idxs_dense, size)`: translate dense raster indices to
sparse indices via a dense lookup table that holds the position of every valid
cell and the sentinel elsewhere; raises `ValueError` when any input index is
negative or not below `size`.  Dense indices are signed (`np.intp`), hence
`Int`. -/
def _sparse_idx (idxs : List Int) (idxs_dense : List Nat) (size : Nat) :
    Except String (List Nat) :=
  if idxs.any (fun i => decide (i < 0) || decide ((size : Int) ≤ i)) then
    Except.error "Index out of bounds"
  else
    let idxs_sparse := lutGo (List.replicate size _mv) idxs_dense 0
    Except.ok (idxs.map (fun i => idxs_sparse.getD i.toNat _mv))

/-- Numpy fancy assignment `data_out[idxs_dense] = data`. -/
def scatter {α : Type} : List α → List Nat → List α → List α
  | a, d :: ds, x :: xs => scatter (a.set d x) ds xs
  | a, _, _ => a

/-- `_densify(data, idxs_dense, shape, nodata)`: scatter a sparse value array
into a dense raster of `shape[0] * shape[1]` cells filled with `nodata`;
raises `ValueError` on a length mismatch.  The result is kept in flattened
(row-major) form; the source's final `.reshape(shape)` only changes the view. -/
def _densify {α : Type} (data : List α) (idxs_dense : List Nat)
    (shape : Nat × Nat) (nodata : α) : Except String (List α) :=
  if idxs_dense.length ≠ data.length then Except.error "data has invalid size"
  else Except.ok (scatter (List.replicate (shape.1 * shape.2) nodata) idxs_dense data)

/-- A 6-coefficient affine transform `(a, b, c, d, e, f)`: `a0` is the
x-resolution, `a4` the y-resolution and `a5` the y-origin (north), the three
coefficients `downstream_length` reads. -/
structure AffineT where
  a0 : ℚ
  a1 : ℚ
  a2 : ℚ
  a3 : ℚ
  a4 : ℚ
  a5 : ℚ

/-- `gis_utils.IDENTITY`, the identity affine transform. -/
def IDENTITY : AffineT := ⟨1, 0, 0, 0, 1, 0⟩

/-- `downstream_length(idx0, idxs_ds, idxs_dense, ncol, latlon, affine)`:
the next downstream index together with the two arguments `(dy * dr, dx * dc)`
the source feeds to `math.hypot`; the returned edge length of the source is
the Euclidean norm of this pair, kept here as an exact pair of rationals
instead of an irrational float.  The latitude-dependent metre factors
`gis_utils.degree_metres_y/x` live outside this module and are taken as
parameters `degY`/`degX`. -/
def downstream_length (degY degX : ℚ → ℚ) (idx0 : Nat)
    (idxs_ds idxs_dense : List Nat) (ncol : Nat) (latlon : Bool)
    (affine : AffineT) : Nat × (ℚ × ℚ) :=
  let xres := affine.a0
  let yres := affine.a4
  let north := affine.a5
  let idx1 := downstream idx0 idxs_ds
  let idx := idxs_dense.getD idx0 0
  let idx_ds := idxs_dense.getD idx1 0
  let r : Nat := idx_ds / ncol
  let dr : Int := (idx / ncol : Nat) - (r : Int)
  let dc : Int := ((idx % ncol : Nat) : Int) - ((idx_ds % ncol : Nat) : Int)
  if latlon then
    let lat := north + ((r : ℚ) + 1 / 2) * yres
    let dy := if dr = 0 then 0 else degY lat * yres
    let dx := if dc = 0 then 0 else degX lat * xres
    (idx1, (dy * (dr : ℚ), dx * (dc : ℚ)))
  else
    (idx1, (xres * (dr : ℚ), yres * (dc : ℚ)))

/-- Squared Euclidean norm of the pair fed to `math.hypot`: the square of the
edge length returned by the source. -/
def lengthSq (p : ℚ × ℚ) : ℚ := p.1 ^ 2 + p.2 ^ 2

/-- Specification-level iterate of the single-hop downstream map: `dsIter ds k i`
is the cell reached from `i` after `k` hops. -/
def dsIter (idxs_ds : List Nat) : Nat → Nat → Nat
  | 0, i => i
  | k + 1, i => dsIter idxs_ds k (nth idxs_ds i)

/-- Specification-level in-degree of cell `v`: the number of cells other than
`v` itself whose downstream cell is `v`. -/
def indeg (idxs_ds : List Nat) (v : Nat) : Nat :=
  (List.range idxs_ds.length).countP (fun i => i != v && nth idxs_ds i == v)

/-- Specification-level list of upstream cells of `v` in scan order. -/
def usList (idxs_ds : List Nat) (v : Nat) : List Nat :=
  (List.range idxs_ds.length).filter (fun i => i != v && nth idxs_ds i == v)

/-- Specification-level maximal in-degree over all cells. -/
def maxIndeg (idxs_ds : List Nat) : Nat :=
  ((List.range idxs_ds.length).map (indeg idxs_ds)).foldl max 0

/-- The breadth-first frontier sequence used by both `network_tree` and
`loop_indices`: the seed, then repeated `upstream` expansion. -/
def frontiers (idxs_us : List (List Nat)) (seed : List Nat) : Nat → List Nat
  | 0 => seed
  | k + 1 => upstream (frontiers idxs_us seed k) idxs_us

/-- A cell is reachable when some breadth-first frontier contains it. -/
def reachable (idxs_us : List (List Nat)) (seed : List Nat) (i : Nat) : Prop :=
  ∃ k, i ∈ frontiers idxs_us seed k

/-! ### Generic list helpers -/

theorem getD_set_of_ne {α : Type} (l : List α) {i j : Nat} (h : i ≠ j)
    (a : α) (d : α) : (l.set i a).getD j d = l.getD j d := by
  simp [List.getD_eq_getElem?_getD, List.getElem?_set_ne h]

theorem getD_set_self {α : Type} (l : List α) {i : Nat} (h : i < l.length)
    (a : α) (d : α) : (l.set i a).getD i d = a := by
  simp [List.getD_eq_getElem?_getD, List.getElem?_set_eq_of_lt a h]

theorem getD_irrel {α : Type} {l : List α} {i : Nat} (h : i < l.length)
    (d d' : α) : l.getD i d = l.getD i d' := by
  simp [List.getD_eq_getElem?_getD, List.getElem?_eq_getElem h]

theorem getD_replicate {α : Type} {k i : Nat} (x d : α) (h : i < k) :
    (List.replicate k x).getD i d = x := by
  induction k generalizing i with
  | zero => omega
  | succ k ih =>
    cases i with
    | zero => rfl
    | succ i => simpa [List.replicate_succ] using ih (Nat.lt_of_succ_lt_succ h)

theorem getD_mem_or {α : Type} (l : List α) (i : Nat) (d : α) :
    l.getD i d ∈ l ∨ l.getD i d = d := by
  rcases Nat.lt_or_ge i l.length with h | h
  · left
    rw [List.getD_eq_getElem?_getD, List.getElem?_eq_getElem h]
    exact List.getElem_mem h
  · right
    rw [List.getD_eq_getElem?_getD, List.getElem?_eq_none h]
    rfl

theorem getD_pos_of_ne {α : Type} {l : List α} {i : Nat} {d : α}
    (h : l.getD i d ≠ d) : i < l.length := by
  by_contra hge
  rw [List.getD_eq_getElem?_getD, List.getElem?_eq_none (Nat.le_of_not_lt hge)] at h
  exact h rfl

/-! ### Index Translator: `_sparse_idx` and `_densify` (C6, C7) -/

theorem lutGo_length (dv : List Nat) :
    ∀ (a : List Nat) (k : Nat), (lutGo a dv k).length = a.length := by
  induction dv with
  | nil => intro a k; rfl
  | cons d rest ih => intro a k; rw [lutGo, ih]; simp

theorem lutGo_getD (dv : List Nat) (hnd : dv.Nodup) :
    ∀ (a : List Nat) (k x : Nat), (∀ e ∈ dv, e < a.length) →
      (lutGo a dv k).getD x _mv =
        if x ∈ dv then k + dv.indexOf x else a.getD x _mv := by
  induction dv with
  | nil => intro a k x _; simp [lutGo]
  | cons d rest ih =>
    intro a k x hlt
    rw [lutGo]
    rcases List.nodup_cons.mp hnd with ⟨hd, hnd'⟩
    rw [ih hnd' _ _ _ (by intro e he; simpa using hlt e (List.mem_cons_of_mem _ he))]
    by_cases hx : x = d
    · rw [hx, if_neg hd, getD_set_self a (hlt d (List.mem_cons_self d rest)) k _mv]
      simp [List.indexOf_cons_self]
    · by_cases hxr : x ∈ rest
      · simp only [hxr, if_true, List.mem_cons, hx, false_or, if_true]
        rw [List.indexOf_cons_ne _ (by simpa using (Ne.symm hx))]
        omega
      · simp only [hxr, if_false, List.mem_cons, hx, false_or, if_false]
        exact getD_set_of_ne a (fun h => hx h.symm) k _mv

/-- C7: `denseToSparse` fails with an out-of-range error iff some input dense
index is negative or at least `rasterSize`; otherwise every unlisted dense
index maps to the sentinel and every valid one to its position in the
valid-cell list. -/
theorem C7_sparse_idx_spec (idxs : List Int) (idxs_dense : List Nat) (size : Nat)
    (hnd : idxs_dense.Nodup) (hlt : ∀ e ∈ idxs_dense, e < size) :
    ((_sparse_idx idxs idxs_dense size = Except.error "Index out of bounds") ↔
      ∃ i ∈ idxs, i < 0 ∨ (size : Int) ≤ i) ∧
    ((¬ ∃ i ∈ idxs, i < 0 ∨ (size : Int) ≤ i) →
      _sparse_idx idxs idxs_dense size =
        Except.ok (idxs.map (fun i =>
          if i.toNat ∈ idxs_dense then idxs_dense.indexOf i.toNat else _mv))) := by
  have hcond : (idxs.any (fun i => decide (i < 0) || decide ((size : Int) ≤ i)) = true)
      ↔ ∃ i ∈ idxs, i < 0 ∨ (size : Int) ≤ i := by
    simp [List.any_eq_true]
  constructor
  · constructor
    · intro herr
      by_contra hno
      rw [_sparse_idx, if_neg (fun h => hno (hcond.mp h))] at herr
      exact Except.noConfusion herr
    · intro hex
      rw [_sparse_idx, if_pos (hcond.mpr hex)]
  · intro hno
    rw [_sparse_idx, if_neg (fun h => hno (hcond.mp h))]
    refine congrArg Except.ok (List.map_congr_left ?_)
    intro i hi
    have hlut_len : (lutGo (List.replicate size _mv) idxs_dense 0).length = size := by
      rw [lutGo_length]; simp
    rw [lutGo_getD idxs_dense hnd _ 0 i.toNat (by simpa using hlt)]
    by_cases hmem : i.toNat ∈ idxs_dense
    · simp [hmem]
    · simp only [hmem, if_false]
      exact getD_replicate _mv _mv (by
        have : ¬(i < 0 ∨ (size : Int) ≤ i) := fun h => hno ⟨i, hi, h⟩
        omega)

/-- C7 witness: a concrete instantiation of `C7_sparse_idx_spec`: an in-bounds
query maps listed dense indices to their positions and unlisted ones to the
sentinel, and an out-of-bounds query raises the error. -/
theorem C7_sparse_idx_spec_witness :
    _sparse_idx [0, 2, 3] [2, 0] 4 =
      Except.ok (([0, 2, 3] : List Int).map (fun i =>
        if i.toNat ∈ [2, 0] then List.indexOf i.toNat [2, 0] else _mv)) ∧
    _sparse_idx [5] [2, 0] 4 = Except.error "Index out of bounds" :=
  ⟨(C7_sparse_idx_spec [0, 2, 3] [2, 0] 4 (by decide) (by decide)).2 (by decide),
   (C7_sparse_idx_spec [5] [2, 0] 4 (by decide) (by decide)).1.mpr
     ⟨5, by decide, by decide⟩⟩

theorem scatter_length {α : Type} (dv : List Nat) :
    ∀ (a : List α) (xs : List α), (scatter a dv xs).length = a.length := by
  induction dv with
  | nil => intro a xs; cases xs <;> rfl
  | cons d rest ih =>
    intro a xs
    cases xs with
    | nil => rfl
    | cons x xr => rw [scatter, ih]; simp

theorem scatter_getD_not_mem {α : Type} (dv : List Nat) {x : Nat} (h : x ∉ dv) :
    ∀ (a : List α) (xs : List α) (d : α), (scatter a dv xs).getD x d = a.getD x d := by
  induction dv with
  | nil => intro a xs d; cases xs <;> rfl
  | cons e rest ih =>
    intro a xs d
    cases xs with
    | nil => rfl
    | cons v xr =>
      rw [scatter, ih (fun hx => h (List.mem_cons_of_mem _ hx))]
      have hxe : e ≠ x := fun hh => h (by rw [← hh]; exact List.mem_cons_self e rest)
      exact getD_set_of_ne a hxe v d

theorem scatter_read_back {α : Type} (dv : List Nat) (hnd : dv.Nodup) :
    ∀ (a : List α) (xs : List α) (d : α), dv.length = xs.length →
      (∀ e ∈ dv, e < a.length) →
      dv.map (fun e => (scatter a dv xs).getD e d) = xs := by
  induction dv with
  | nil =>
    intro a xs d hlen _
    cases xs with
    | nil => rfl
    | cons x xr => exact absurd hlen (by simp)
  | cons e rest ih =>
    intro a xs d hlen hlt
    cases xs with
    | nil => exact absurd hlen (by simp)
    | cons x xr =>
      rcases List.nodup_cons.mp hnd with ⟨he, hnd'⟩
      rw [scatter, List.map_cons]
      have hbound : ∀ e' ∈ rest, e' < (a.set e x).length := by
        intro e' he'; simpa using hlt e' (List.mem_cons_of_mem _ he')
      have hhead : (scatter (a.set e x) rest xr).getD e d = x := by
        rw [scatter_getD_not_mem rest he]
        exact getD_set_self a (hlt e (List.mem_cons_self e rest)) x d
      have htail : rest.map (fun e' => (scatter (a.set e x) rest xr).getD e' d) = xr :=
        ih hnd' (a.set e x) xr d (by simpa using hlen) hbound
      rw [hhead, htail]

/-- C6 counterexample: with sparse values `v = [0]`, valid cell list `[0]`,
shape `(1, 2)` and the default nodata `-9999`, `sparseToDense` produces the
dense array `[0, -9999]`, and feeding that array to `denseToSparse` raises the
out-of-bounds error instead of recovering `v`: the literal composition of the
two translator functions is not a round trip. -/
theorem C6_counterexample :
    _densify ([0] : List Int) [0] (1, 2) (-9999) = Except.ok [0, -9999] ∧
    _sparse_idx [0, -9999] [0] 2 = Except.error "Index out of bounds" :=
  ⟨rfl, rfl⟩

/-- C6 (amended): `sparseToDense` is inverted by reading the dense array back
at the valid dense indices (for distinct, in-range valid indices), which is the
actual dense/sparse value round trip of the Index Translator; the literal
composition with `denseToSparse` instead treats dense cell values as indices
and fails on nodata cells (see `C6_counterexample`). -/
theorem C6_densify_roundtrip {α : Type} (data : List α) (idxs_dense : List Nat)
    (shape : Nat × Nat) (nodata : α) (hnd : idxs_dense.Nodup)
    (hlen : idxs_dense.length = data.length)
    (hlt : ∀ e ∈ idxs_dense, e < shape.1 * shape.2) :
    _densify data idxs_dense shape nodata =
      Except.ok (scatter (List.replicate (shape.1 * shape.2) nodata)
        idxs_dense data) ∧
    idxs_dense.map (fun e =>
      (scatter (List.replicate (shape.1 * shape.2) nodata)
        idxs_dense data).getD e nodata) = data := by
  constructor
  · rw [_densify, if_neg (by omega)]
  · exact scatter_read_back idxs_dense hnd _ data nodata hlen (by simpa using hlt)

/-- C6 witness: a concrete instantiation of `C6_densify_roundtrip`. -/
theorem C6_densify_roundtrip_witness :
    _densify ([7, 8] : List Int) [2, 0] (2, 2) (-9999) =
      Except.ok (scatter (List.replicate (2 * 2) (-9999 : Int)) [2, 0] [7, 8]) ∧
    ([2, 0] : List Nat).map (fun e =>
      (scatter (List.replicate (2 * 2) (-9999 : Int)) [2, 0] [7, 8]).getD
        e (-9999)) = [7, 8] :=
  C6_densify_roundtrip [7, 8] [2, 0] (2, 2) (-9999) (by decide) (by decide)
    (by decide)

/-! ### Concrete scenario (C4) -/

/-- C4 counterexample: for the downstream array `[1, 0]` the network tree is
not the empty sequence of levels: the builder always appends the pit array as
level 0, even when it is empty. -/
theorem C4_counterexample :
    ¬ (pit_indices [1, 0] = [] ∧
       loop_indices [1, 0] (_idxs_us [1, 0]) = [0, 1] ∧
       network_tree (pit_indices [1, 0]) (_idxs_us [1, 0]) = []) := by decide

/-- C4 (amended): for the downstream array `[1, 0]` pit detection returns the
empty set and loop detection returns `{0, 1}`, but the network tree is the
one-level sequence `[[]]` whose only level is the empty pit array, not the
empty sequence of levels. -/
theorem C4_scenario :
    pit_indices [1, 0] = [] ∧
    loop_indices [1, 0] (_idxs_us [1, 0]) = [0, 1] ∧
    network_tree (pit_indices [1, 0]) (_idxs_us [1, 0]) = [[]] := by decide

/-! ### Weighted main-upstream selection (C5) -/

/-- The prefix of a cell's upstream row that `_main_upstream` actually scans:
everything before the first sentinel. -/
def mainUpPre (idxs_us : List (List Nat)) (idx0 : Nat) : List Nat :=
  (idxs_us.getD idx0 []).takeWhile (fun j => j != _mv)

/-- The qualifying entries of the scanned prefix: upstream area at least
`upa_min`. -/
def mainUpQualifying (idxs_us : List (List Nat)) (uparea_sparse : List ℚ)
    (upa_min : ℚ) (idx0 : Nat) : List Nat :=
  (mainUpPre idxs_us idx0).filter (fun j => decide (upa_min ≤ uparea_sparse.getD j 0))

theorem mainUpGo_takeWhile (uparea_sparse : List ℚ) (l : List Nat) :
    ∀ (b : Nat) (u : ℚ),
      mainUpGo uparea_sparse (l.takeWhile (fun j => j != _mv)) b u =
        mainUpGo uparea_sparse l b u := by
  induction l with
  | nil => intro b u; rfl
  | cons j rest ih =>
    intro b u
    by_cases hj : j = _mv
    · simp [List.takeWhile_cons, hj, mainUpGo]
    · rw [List.takeWhile_cons, if_pos (by simpa using hj)]
      rw [mainUpGo, mainUpGo, if_neg hj, if_neg hj]
      by_cases hle : u ≤ uparea_sparse.getD j 0
      · rw [if_pos hle, if_pos hle, ih]
      · rw [if_neg hle, if_neg hle, ih]

theorem mainUpGo_spec (uparea_sparse : List ℚ) (l : List Nat) (hl : _mv ∉ l) :
    ∀ (b : Nat) (u : ℚ),
      (mainUpGo uparea_sparse l b u = b ∧ ∀ j ∈ l, uparea_sparse.getD j 0 < u) ∨
      (mainUpGo uparea_sparse l b u ∈ l ∧
       u ≤ uparea_sparse.getD (mainUpGo uparea_sparse l b u) 0 ∧
       (∀ j ∈ l, uparea_sparse.getD j 0 ≤
          uparea_sparse.getD (mainUpGo uparea_sparse l b u) 0) ∧
       ∃ l₁ l₂, l = l₁ ++ mainUpGo uparea_sparse l b u :: l₂ ∧
         ∀ j ∈ l₂, uparea_sparse.getD j 0 <
           uparea_sparse.getD (mainUpGo uparea_sparse l b u) 0) := by
  induction l with
  | nil => intro b u; exact Or.inl ⟨rfl, by simp⟩
  | cons j rest ih =>
    intro b u
    have hj : j ≠ _mv := fun h => hl (h ▸ List.mem_cons_self j rest)
    have hrest : _mv ∉ rest := fun h => hl (List.mem_cons_of_mem _ h)
    rw [mainUpGo, if_neg hj]
    by_cases hle : u ≤ uparea_sparse.getD j 0
    · rw [if_pos hle]
      rcases ih hrest j (uparea_sparse.getD j 0) with ⟨hr, hall⟩ | ⟨hmem, hu, hall, l₁, l₂, hsplit, hlast⟩
      · refine Or.inr ⟨?_, ?_, ?_, [], rest, ?_, ?_⟩
        · rw [hr]; exact List.mem_cons_self j rest
        · rw [hr]; exact hle
        · intro j' hj'
          rw [hr]
          rcases List.mem_cons.mp hj' with h | h
          · rw [h]
          · exact le_of_lt (hall j' h)
        · rw [hr]; rfl
        · intro j' hj'; rw [hr]; exact hall j' hj'
      · refine Or.inr ⟨List.mem_cons_of_mem _ hmem, le_trans hle hu, ?_,
          j :: l₁, l₂, by rw [List.cons_append]; exact congrArg (List.cons j) hsplit, hlast⟩
        intro j' hj'
        rcases List.mem_cons.mp hj' with h | h
        · rw [h]; exact hu
        · exact hall j' h
    · rw [if_neg hle]
      rcases ih hrest b u with ⟨hr, hall⟩ | ⟨hmem, hu, hall, l₁, l₂, hsplit, hlast⟩
      · refine Or.inl ⟨hr, ?_⟩
        intro j' hj'
        rcases List.mem_cons.mp hj' with h | h
        · rw [h]; exact lt_of_not_le hle
        · exact hall j' h
      · refine Or.inr ⟨List.mem_cons_of_mem _ hmem, hu, ?_,
          j :: l₁, l₂, by rw [List.cons_append]; exact congrArg (List.cons j) hsplit, hlast⟩
        intro j' hj'
        rcases List.mem_cons.mp hj' with h | h
        · rw [h]; exact le_trans (le_of_lt (lt_of_not_le hle)) hu
        · exact hall j' h

theorem mainUpPre_no_mv (idxs_us : List (List Nat)) (idx0 : Nat) :
    _mv ∉ mainUpPre idxs_us idx0 := by
  intro h
  have := List.mem_takeWhile_imp h
  simp at this

/-- C5: `mainUpstream` is the per-cell map of `_main_upstream` (after the
upstream-area size check); for each cell, the selected index is never a
non-sentinel index whose upstream area is below `upa_min`, and when it is
non-sentinel its upstream area is the maximum over the qualifying entries of
the scanned row prefix, ties resolved to the last such entry (every entry
after the selected one is strictly smaller); the sentinel is returned exactly
when no entry qualifies. -/
theorem C5_main_upstream_spec (idxs : List Nat) (idxs_us : List (List Nat))
    (uparea_sparse : List ℚ) (upa_min : ℚ) (idx0 : Nat)
    (hsize : idxs_us.length = uparea_sparse.length) :
    main_upstream idxs idxs_us uparea_sparse upa_min =
      Except.ok (idxs.map (fun i => _main_upstream i idxs_us uparea_sparse upa_min)) ∧
    (_main_upstream idx0 idxs_us uparea_sparse upa_min = _mv ↔
      mainUpQualifying idxs_us uparea_sparse upa_min idx0 = []) ∧
    (_main_upstream idx0 idxs_us uparea_sparse upa_min ≠ _mv →
      _main_upstream idx0 idxs_us uparea_sparse upa_min ∈
        mainUpQualifying idxs_us uparea_sparse upa_min idx0 ∧
      upa_min ≤ uparea_sparse.getD (_main_upstream idx0 idxs_us uparea_sparse upa_min) 0 ∧
      (∀ j ∈ mainUpQualifying idxs_us uparea_sparse upa_min idx0,
        uparea_sparse.getD j 0 ≤
          uparea_sparse.getD (_main_upstream idx0 idxs_us uparea_sparse upa_min) 0) ∧
      ∃ l₁ l₂, mainUpPre idxs_us idx0 =
          l₁ ++ _main_upstream idx0 idxs_us uparea_sparse upa_min :: l₂ ∧
        ∀ j ∈ l₂, uparea_sparse.getD j 0 <
          uparea_sparse.getD (_main_upstream idx0 idxs_us uparea_sparse upa_min) 0) := by
  have hres : _main_upstream idx0 idxs_us uparea_sparse upa_min =
      mainUpGo uparea_sparse (mainUpPre idxs_us idx0) _mv upa_min := by
    rw [_main_upstream, mainUpPre, mainUpGo_takeWhile]
  have hmaster := mainUpGo_spec uparea_sparse (mainUpPre idxs_us idx0)
    (mainUpPre_no_mv idxs_us idx0) _mv upa_min
  refine ⟨by rw [main_upstream, if_neg (by omega)], ?_, ?_⟩
  · constructor
    · intro hmv
      rcases hmaster with ⟨_, hall⟩ | ⟨hmem, _, _, _⟩
      · rw [mainUpQualifying, List.filter_eq_nil_iff]
        intro j hj
        simpa using not_le.mpr (hall j hj)
      · exact absurd (hres ▸ hmem) (hmv ▸ mainUpPre_no_mv idxs_us idx0)
    · intro hq
      rcases hmaster with ⟨hr, _⟩ | ⟨hmem, hu, _, _⟩
      · rw [hres, hr]
      · exfalso
        have : mainUpGo uparea_sparse (mainUpPre idxs_us idx0) _mv upa_min ∈
            mainUpQualifying idxs_us uparea_sparse upa_min idx0 := by
          rw [mainUpQualifying, List.mem_filter]
          exact ⟨hmem, by simpa using hu⟩
        rw [hq] at this
        exact absurd this (List.not_mem_nil _)
  · intro hne
    rcases hmaster with ⟨hr, _⟩ | ⟨hmem, hu, hall, l₁, l₂, hsplit, hlast⟩
    · exact absurd (hres.trans hr) hne
    · rw [hres]
      refine ⟨?_, hu, ?_, l₁, l₂, hsplit, hlast⟩
      · rw [mainUpQualifying, List.mem_filter]
        exact ⟨hmem, by simpa using hu⟩
      · intro j hj
        exact hall j (List.mem_filter.mp hj).1

/-- C5 witness: a concrete instantiation of `C5_main_upstream_spec` with a
tied maximum: the scan selects entry 2, the last qualifying entry of the row,
whose upstream area 3 is the maximum among the qualifying entries. -/
theorem C5_main_upstream_spec_witness :
    main_upstream [0] [[1, 2, _mv], [_mv, _mv, _mv], [_mv, _mv, _mv]] [5, 3, 3] 0 =
      Except.ok (([0] : List Nat).map
        (fun i => _main_upstream i [[1, 2, _mv], [_mv, _mv, _mv], [_mv, _mv, _mv]]
          [5, 3, 3] 0)) ∧
    _main_upstream 0 [[1, 2, _mv], [_mv, _mv, _mv], [_mv, _mv, _mv]] [5, 3, 3] 0 ∈
      mainUpQualifying [[1, 2, _mv], [_mv, _mv, _mv], [_mv, _mv, _mv]] [5, 3, 3] 0 0 ∧
    (0 : ℚ) ≤ ([5, 3, 3] : List ℚ).getD
      (_main_upstream 0 [[1, 2, _mv], [_mv, _mv, _mv], [_mv, _mv, _mv]] [5, 3, 3] 0) 0 :=
  have h := C5_main_upstream_spec [0] [[1, 2, _mv], [_mv, _mv, _mv], [_mv, _mv, _mv]]
    [5, 3, 3] 0 0 (by decide)
  ⟨h.1, (h.2.2 (by decide)).1, (h.2.2 (by decide)).2.1⟩

/-! ### Downstream path tracing (C8) -/

theorem nth_lt {idxs_ds : List Nat} (hwf : ∀ j ∈ idxs_ds, j < idxs_ds.length)
    {i : Nat} (h : i < idxs_ds.length) : nth idxs_ds i < idxs_ds.length := by
  rw [nth, List.getD_eq_getElem?_getD, List.getElem?_eq_getElem h]
  exact hwf _ (List.getElem_mem h)

theorem dsIter_add (idxs_ds : List Nat) (a b : Nat) :
    ∀ i, dsIter idxs_ds (a + b) i = dsIter idxs_ds b (dsIter idxs_ds a i) := by
  induction a with
  | zero => intro i; rw [Nat.zero_add]; rfl
  | succ a ih =>
    intro i
    have : a + 1 + b = (a + b) + 1 := by omega
    rw [this]
    exact ih (nth idxs_ds i)

theorem dsIter_lt {idxs_ds : List Nat} (hwf : ∀ j ∈ idxs_ds, j < idxs_ds.length)
    (k : Nat) : ∀ {i : Nat}, i < idxs_ds.length →
      dsIter idxs_ds k i < idxs_ds.length := by
  induction k with
  | zero => intro i h; exact h
  | succ k ih => intro i h; exact ih (nth_lt hwf h)

theorem pit_time_lt (idxs_ds : List Nat) (hwf : ∀ j ∈ idxs_ds, j < idxs_ds.length)
    {idx0 k : Nat} (h0 : idx0 < idxs_ds.length)
    (hpit : nth idxs_ds (dsIter idxs_ds k idx0) = dsIter idxs_ds k idx0)
    (hmin : ∀ j < k, nth idxs_ds (dsIter idxs_ds j idx0) ≠ dsIter idxs_ds j idx0) :
    k < idxs_ds.length + 1 := by
  have key : ∀ a b : Nat, a < b → b ≤ k →
      dsIter idxs_ds a idx0 = dsIter idxs_ds b idx0 → False := by
    intro a b hab hbk heq
    have hk : k = b + (k - b) := by omega
    have hiter : dsIter idxs_ds (a + (k - b)) idx0 = dsIter idxs_ds k idx0 := by
      rw [dsIter_add, heq, ← dsIter_add, ← hk]
    have hjk : a + (k - b) < k := by omega
    apply hmin _ hjk
    rw [hiter]
    exact hpit
  have hinj : Function.Injective
      (fun a : Fin (k + 1) => (⟨dsIter idxs_ds a.1 idx0, dsIter_lt hwf a.1 h0⟩ :
        Fin idxs_ds.length)) := by
    intro a b hab
    have heq : dsIter idxs_ds a.1 idx0 = dsIter idxs_ds b.1 idx0 :=
      congrArg Fin.val hab
    rcases lt_trichotomy a.1 b.1 with h | h | h
    · exact absurd heq (fun he => key a.1 b.1 h (Nat.lt_succ_iff.mp b.2) he)
    · exact Fin.ext h
    · exact absurd heq.symm (fun he => key b.1 a.1 h (Nat.lt_succ_iff.mp a.2) he)
  have := Fintype.card_le_of_injective _ hinj
  have h2 : k + 1 ≤ idxs_ds.length := by simpa using this
  omega

theorem downstreamPathGo_spec (idxs_ds : List Nat) (k : Nat) :
    ∀ (fuel idx0 : Nat), k < fuel →
      nth idxs_ds (dsIter idxs_ds k idx0) = dsIter idxs_ds k idx0 →
      (∀ j < k, nth idxs_ds (dsIter idxs_ds j idx0) ≠ dsIter idxs_ds j idx0) →
      downstreamPathGo idxs_ds fuel idx0 =
        (List.range k).map (fun j => dsIter idxs_ds (j + 1) idx0) := by
  induction k with
  | zero =>
    intro fuel idx0 hfuel hpit _
    cases fuel with
    | zero => omega
    | succ f =>
      rw [downstreamPathGo]
      simp only [List.range_zero, List.map_nil]
      simp only [dsIter] at hpit
      rw [if_pos hpit.symm]
  | succ k ih =>
    intro fuel idx0 hfuel hpit hmin
    cases fuel with
    | zero => omega
    | succ f =>
      rw [downstreamPathGo]
      rw [if_neg (fun h => hmin 0 (Nat.succ_pos k) h.symm)]
      rw [ih f (nth idxs_ds idx0) (by omega) hpit (fun j hj => hmin (j + 1) (by omega))]
      rw [List.range_succ_eq_map, List.map_cons, List.map_map]
      rfl

/-- C8: when repeated downstream hops from `idx0` first reach a self-targeting
cell after `k` hops, `downstream_path` terminates and returns exactly the
ordered sequence of visited cells, from `idx0` (hop 0) to its pit (hop `k`)
inclusive; in particular on a pit cell it returns the one-element path. -/
theorem C8_downstream_path_spec (idxs_ds : List Nat) (idx0 k : Nat)
    (hwf : ∀ j ∈ idxs_ds, j < idxs_ds.length) (h0 : idx0 < idxs_ds.length)
    (hpit : nth idxs_ds (dsIter idxs_ds k idx0) = dsIter idxs_ds k idx0)
    (hmin : ∀ j < k, nth idxs_ds (dsIter idxs_ds j idx0) ≠ dsIter idxs_ds j idx0) :
    downstream_path idx0 idxs_ds =
      (List.range (k + 1)).map (fun j => dsIter idxs_ds j idx0) ∧
    (nth idxs_ds idx0 = idx0 → downstream_path idx0 idxs_ds = [idx0]) := by
  have hklt : k < idxs_ds.length + 1 := pit_time_lt idxs_ds hwf h0 hpit hmin
  have hpath : downstream_path idx0 idxs_ds =
      (List.range (k + 1)).map (fun j => dsIter idxs_ds j idx0) := by
    rw [downstream_path, downstreamPathGo_spec idxs_ds k _ idx0 hklt hpit hmin]
    rw [List.range_succ_eq_map, List.map_cons, List.map_map]
    rfl
  refine ⟨hpath, ?_⟩
  intro hp0
  have hk0 : k = 0 := by
    by_contra hk
    exact hmin 0 (Nat.pos_of_ne_zero hk) hp0
  rw [hpath, hk0]
  rfl

/-- C8 witness: a concrete instantiation of `C8_downstream_path_spec` on the
array `[1, 2, 2]`, whose cell 0 reaches the pit 2 after two hops. -/
theorem C8_downstream_path_spec_witness :
    downstream_path 0 [1, 2, 2] =
      (List.range 3).map (fun j => dsIter [1, 2, 2] j 0) :=
  (C8_downstream_path_spec [1, 2, 2] 0 2 (by decide) (by decide) (by decide)
    (by decide)).1

/-! ### Planar downstream edge length (C10) -/

/-- Row delta `dr = idx // ncol - idx_ds // ncol` between the dense addresses
of a cell and its downstream cell. -/
def denseRowDelta (idxs_dense : List Nat) (ncol idx0 idx1 : Nat) : Int :=
  (((idxs_dense.getD idx0 0) / ncol : Nat) : Int) -
    (((idxs_dense.getD idx1 0) / ncol : Nat) : Int)

/-- Column delta `dc = idx % ncol - idx_ds % ncol` between the dense addresses
of a cell and its downstream cell. -/
def denseColDelta (idxs_dense : List Nat) (ncol idx0 idx1 : Nat) : Int :=
  (((idxs_dense.getD idx0 0) % ncol : Nat) : Int) -
    (((idxs_dense.getD idx1 0) % ncol : Nat) : Int)

/-- C10: in the planar (non-geographic) case `downstream_length` feeds
`math.hypot` the pair `(xres * dr, yres * dc)`: the affine x-resolution
(coefficient 0) scales the row delta and the y-resolution (coefficient 4)
scales the column delta.  With the identity transform an adjacent move has
squared length 1 and a diagonal move squared length 2 (length 1 resp. √2),
and the squared length is invariant under swapping the two resolutions for
every move exactly when the squared resolutions agree. -/
theorem C10_downstream_length_planar (degY degX : ℚ → ℚ) (idx0 : Nat)
    (idxs_ds idxs_dense : List Nat) (ncol : Nat) (affine : AffineT) :
    downstream_length degY degX idx0 idxs_ds idxs_dense ncol false affine =
      (downstream idx0 idxs_ds,
        (affine.a0 * ((denseRowDelta idxs_dense ncol idx0 (downstream idx0 idxs_ds) : Int) : ℚ),
         affine.a4 * ((denseColDelta idxs_dense ncol idx0 (downstream idx0 idxs_ds) : Int) : ℚ))) ∧
    (affine = IDENTITY →
      ((denseRowDelta idxs_dense ncol idx0 (downstream idx0 idxs_ds)) ^ 2 +
          (denseColDelta idxs_dense ncol idx0 (downstream idx0 idxs_ds)) ^ 2 = 1 →
        lengthSq (downstream_length degY degX idx0 idxs_ds idxs_dense ncol false affine).2 = 1) ∧
      ((denseRowDelta idxs_dense ncol idx0 (downstream idx0 idxs_ds)) ^ 2 = 1 ∧
          (denseColDelta idxs_dense ncol idx0 (downstream idx0 idxs_ds)) ^ 2 = 1 →
        lengthSq (downstream_length degY degX idx0 idxs_ds idxs_dense ncol false affine).2 = 2)) ∧
    ((∀ dr dc : Int, (affine.a0 * (dr : ℚ)) ^ 2 + (affine.a4 * (dc : ℚ)) ^ 2 =
        (affine.a4 * (dr : ℚ)) ^ 2 + (affine.a0 * (dc : ℚ)) ^ 2) ↔
      affine.a0 ^ 2 = affine.a4 ^ 2) := by
  have hmain : downstream_length degY degX idx0 idxs_ds idxs_dense ncol false affine =
      (downstream idx0 idxs_ds,
        (affine.a0 * ((denseRowDelta idxs_dense ncol idx0 (downstream idx0 idxs_ds) : Int) : ℚ),
         affine.a4 * ((denseColDelta idxs_dense ncol idx0 (downstream idx0 idxs_ds) : Int) : ℚ))) := rfl
  refine ⟨hmain, ?_, ?_⟩
  · intro hid
    subst hid
    constructor
    · intro h1
      rw [hmain, lengthSq]
      show ((1 : ℚ) * _) ^ 2 + ((1 : ℚ) * _) ^ 2 = 1
      have : (((denseRowDelta idxs_dense ncol idx0 (downstream idx0 idxs_ds)) ^ 2 +
          (denseColDelta idxs_dense ncol idx0 (downstream idx0 idxs_ds)) ^ 2 : Int) : ℚ) = 1 := by
        rw [h1]; norm_num
      push_cast at this
      nlinarith [this]
    · intro h2
      rw [hmain, lengthSq]
      show ((1 : ℚ) * _) ^ 2 + ((1 : ℚ) * _) ^ 2 = 2
      have hr : (((denseRowDelta idxs_dense ncol idx0 (downstream idx0 idxs_ds)) ^ 2 : Int) : ℚ) = 1 := by
        rw [h2.1]; norm_num
      have hc : (((denseColDelta idxs_dense ncol idx0 (downstream idx0 idxs_ds)) ^ 2 : Int) : ℚ) = 1 := by
        rw [h2.2]; norm_num
      push_cast at hr hc
      nlinarith [hr, hc]
  · constructor
    · intro hall
      have := hall 1 0
      push_cast at this
      nlinarith [this]
    · intro heq dr dc
      have h1 : (affine.a0 * (dr : ℚ)) ^ 2 = affine.a0 ^ 2 * (dr : ℚ) ^ 2 := by ring
      have h2 : (affine.a4 * (dc : ℚ)) ^ 2 = affine.a4 ^ 2 * (dc : ℚ) ^ 2 := by ring
      have h3 : (affine.a4 * (dr : ℚ)) ^ 2 = affine.a4 ^ 2 * (dr : ℚ) ^ 2 := by ring
      have h4 : (affine.a0 * (dc : ℚ)) ^ 2 = affine.a0 ^ 2 * (dc : ℚ) ^ 2 := by ring
      rw [h1, h2, h3, h4, heq]

/-- C10 witness: on a 2-column raster, a diagonal move under the identity
transform has squared edge length 2. -/
theorem C10_downstream_length_planar_witness :
    lengthSq (downstream_length (fun _ => 0) (fun _ => 0) 0 [1, 1] [0, 3] 2
      false IDENTITY).2 = 2 :=
  ((C10_downstream_length_planar (fun _ => 0) (fun _ => 0) 0 [1, 1] [0, 3] 2
      IDENTITY).2.1 rfl).2 ⟨by decide, by decide⟩

/-! ### Upstream counts in `np.uint8` (C9) -/

theorem getD_eq_getElem {α : Type} {l : List α} {i : Nat} (h : i < l.length)
    (d : α) : l.getD i d = l[i] := by
  simp [List.getD_eq_getElem?_getD, List.getElem?_eq_getElem h]

theorem n_upstream_foldl (idxs_ds : List Nat) (k : Nat) (hk : k ≤ idxs_ds.length) :
    ((List.range k).foldl
      (fun n_up i =>
        let i_ds := nth idxs_ds i
        if i ≠ i_ds then n_up.set i_ds ((n_up.getD i_ds 0 + 1) % 256) else n_up)
      (List.replicate idxs_ds.length 0)).length = idxs_ds.length ∧
    ∀ v < idxs_ds.length,
      ((List.range k).foldl
        (fun n_up i =>
          let i_ds := nth idxs_ds i
          if i ≠ i_ds then n_up.set i_ds ((n_up.getD i_ds 0 + 1) % 256) else n_up)
        (List.replicate idxs_ds.length 0)).getD v 0 =
        ((List.range k).countP (fun i => i != v && nth idxs_ds i == v)) % 256 := by
  induction k with
  | zero =>
    refine ⟨by simp, ?_⟩
    intro v hv
    simp [getD_replicate (0 : Nat) 0 hv]
  | succ k ih =>
    have ih' := ih (by omega)
    rw [List.range_succ, List.foldl_append]
    set s := (List.range k).foldl
      (fun n_up i =>
        let i_ds := nth idxs_ds i
        if i ≠ i_ds then n_up.set i_ds ((n_up.getD i_ds 0 + 1) % 256) else n_up)
      (List.replicate idxs_ds.length 0) with hs
    simp only [List.foldl_cons, List.foldl_nil]
    by_cases hpit : k ≠ nth idxs_ds k
    · rw [if_pos hpit]
      refine ⟨by rw [List.length_set]; exact ih'.1, ?_⟩
      intro v hv
      rw [List.countP_append]
      by_cases hv_ds : v = nth idxs_ds k
      · have hlt : nth idxs_ds k < s.length := by rw [ih'.1, ← hv_ds]; exact hv
        rw [← hv_ds] at hlt ⊢
        rw [getD_set_self s hlt _ 0, ih'.2 v hv]
        have hp : (List.countP (fun i => i != v && nth idxs_ds i == v) [k]) = 1 := by
          simp only [List.countP_cons, List.countP_nil]
          have hb : (k != v && nth idxs_ds k == v) = true := by
            simp only [Bool.and_eq_true, bne_iff_ne, ne_eq, beq_iff_eq]
            exact ⟨fun h => hpit (h.trans hv_ds), hv_ds.symm⟩
          simp [hb]
        rw [hv_ds] at hp ⊢
        rw [hp]
        omega
      · rw [getD_set_of_ne s (fun h => hv_ds h.symm) _ 0, ih'.2 v hv]
        have hp : (List.countP (fun i => i != v && nth idxs_ds i == v) [k]) = 0 := by
          simp only [List.countP_cons, List.countP_nil]
          have hb : (k != v && nth idxs_ds k == v) = false := by
            simp only [Bool.and_eq_false_iff, beq_eq_false_iff_ne, ne_eq]
            right
            exact fun h => hv_ds h.symm
          simp [hb]
        rw [hp]
        omega
    · rw [if_neg hpit]
      push_neg at hpit
      refine ⟨ih'.1, ?_⟩
      intro v hv
      rw [List.countP_append]
      have hp : (List.countP (fun i => i != v && nth idxs_ds i == v) [k]) = 0 := by
        simp only [List.countP_cons, List.countP_nil]
        have hb : (k != v && nth idxs_ds k == v) = false := by
          by_cases hkv : k = v
          · simp [hkv]
          · simp only [Bool.and_eq_false_iff, beq_eq_false_iff_ne, ne_eq]
            right
            rw [← hpit]
            exact hkv
        simp [hb]
      rw [hp, ih'.2 v hv]
      omega

theorem n_upstream_length (idxs_ds : List Nat) :
    (n_upstream idxs_ds).length = idxs_ds.length :=
  (n_upstream_foldl idxs_ds idxs_ds.length (le_refl _)).1

theorem n_upstream_getD (idxs_ds : List Nat) {v : Nat} (hv : v < idxs_ds.length) :
    (n_upstream idxs_ds).getD v 0 = indeg idxs_ds v % 256 :=
  (n_upstream_foldl idxs_ds idxs_ds.length (le_refl _)).2 v hv

/-- C9: `n_upstream` keeps its per-cell counts in 8-bit unsigned counters, so
each returned count is the true in-degree modulo 256; when every in-degree is
below 256 the counts, and hence the table width `d = max(n_upstream)` used by
the Adjacency Builder, are exact. -/
theorem C9_n_upstream_uint8 (idxs_ds : List Nat) :
    (∀ v < idxs_ds.length, (n_upstream idxs_ds).getD v 0 = indeg idxs_ds v % 256) ∧
    ((∀ u < idxs_ds.length, indeg idxs_ds u < 256) →
      n_upstream idxs_ds = (List.range idxs_ds.length).map (indeg idxs_ds) ∧
      (n_upstream idxs_ds).foldl max 0 = maxIndeg idxs_ds) := by
  refine ⟨fun v hv => n_upstream_getD idxs_ds hv, ?_⟩
  intro hsmall
  have heq : n_upstream idxs_ds = (List.range idxs_ds.length).map (indeg idxs_ds) := by
    apply List.ext_getElem
    · rw [n_upstream_length]; simp
    · intro i h1 h2
      have hi : i < idxs_ds.length := by rw [n_upstream_length] at h1; exact h1
      rw [← getD_eq_getElem h1 0, n_upstream_getD idxs_ds hi,
        Nat.mod_eq_of_lt (hsmall i hi)]
      rw [List.getElem_map, List.getElem_range]
  exact ⟨heq, by rw [heq, maxIndeg]⟩

/-- C9 witness: a concrete instantiation of `C9_n_upstream_uint8`. -/
theorem C9_n_upstream_uint8_witness :
    (n_upstream [1, 2, 2]).getD 2 0 = indeg [1, 2, 2] 2 % 256 ∧
    n_upstream [1, 2, 2] = (List.range 3).map (indeg [1, 2, 2]) :=
  ⟨(C9_n_upstream_uint8 [1, 2, 2]).1 2 (by decide),
   ((C9_n_upstream_uint8 [1, 2, 2]).2 (by decide)).1⟩

/-! ### Exact shape of the upstream table under bounded fan-in (C2) -/

theorem set_append_left_length {α : Type} (l : List α) (r : List α) (x : α) :
    (l ++ r).set l.length x = l ++ r.set 0 x := by
  induction l with
  | nil => rfl
  | cons y t ih => simp [List.cons_append, ih]

theorem le_foldl_max (l : List Nat) :
    ∀ a : Nat, a ≤ l.foldl max a ∧ ∀ x ∈ l, x ≤ l.foldl max a := by
  induction l with
  | nil => intro a; exact ⟨le_refl a, by simp⟩
  | cons y t ih =>
    intro a
    refine ⟨le_trans (le_max_left a y) (ih (max a y)).1, ?_⟩
    intro x hx
    rcases List.mem_cons.mp hx with h | h
    · rw [h, List.foldl_cons]
      exact le_trans (le_max_right a y) (ih (max a y)).1
    · exact (ih (max a y)).2 x h

theorem indeg_le_maxIndeg (idxs_ds : List Nat) {v : Nat} (hv : v < idxs_ds.length) :
    indeg idxs_ds v ≤ maxIndeg idxs_ds :=
  (le_foldl_max _ 0).2 _ (List.mem_map_of_mem _ (List.mem_range.mpr hv))

theorem usList_length (idxs_ds : List Nat) (v : Nat) :
    (usList idxs_ds v).length = indeg idxs_ds v :=
  (List.countP_eq_length_filter _ _).symm

/-- Prefix of `usList` contributed by the first `k` scanned cells. -/
def usListUpto (idxs_ds : List Nat) (v k : Nat) : List Nat :=
  (List.range k).filter (fun i => i != v && nth idxs_ds i == v)

/-- State of the placement scan of `_idxs_us` after `k` iterations. -/
def usFold (idxs_ds : List Nat) (d k : Nat) : List (List Nat) × List Nat :=
  (List.range k).foldl (usStep idxs_ds)
    (List.replicate idxs_ds.length (List.replicate d _mv),
     List.replicate idxs_ds.length 0)

theorem _idxs_us_eq_usFold (idxs_ds : List Nat) :
    _idxs_us idxs_ds =
      (usFold idxs_ds ((n_upstream idxs_ds).foldl max 0) idxs_ds.length).1 := rfl

theorem usFold_succ (idxs_ds : List Nat) (d k : Nat) :
    usFold idxs_ds d (k + 1) = usStep idxs_ds (usFold idxs_ds d k) k := by
  rw [usFold, usFold, List.range_succ, List.foldl_append, List.foldl_cons,
    List.foldl_nil]

theorem usListUpto_succ (idxs_ds : List Nat) (v k : Nat) :
    usListUpto idxs_ds v (k + 1) =
      usListUpto idxs_ds v k ++
        (if (k != v && nth idxs_ds k == v) then [k] else []) := by
  rw [usListUpto, usListUpto, List.range_succ, List.filter_append]
  congr 1
  rw [List.filter_cons]
  simp only [List.filter_nil]

theorem usListUpto_succ_no (idxs_ds : List Nat) {v k : Nat}
    (h : (k != v && nth idxs_ds k == v) = false) :
    usListUpto idxs_ds v (k + 1) = usListUpto idxs_ds v k := by
  rw [usListUpto_succ, h]
  simp

theorem usListUpto_succ_yes (idxs_ds : List Nat) {v k : Nat}
    (h : (k != v && nth idxs_ds k == v) = true) :
    usListUpto idxs_ds v (k + 1) = usListUpto idxs_ds v k ++ [k] := by
  rw [usListUpto_succ, h]
  simp

theorem usListUpto_length_le_indeg (idxs_ds : List Nat) (v k : Nat)
    (hk : k ≤ idxs_ds.length) :
    (usListUpto idxs_ds v k).length ≤ indeg idxs_ds v := by
  rw [indeg, List.countP_eq_length_filter]
  exact List.Sublist.length_le
    (List.Sublist.filter _ (List.range_sublist.mpr hk))

theorem usFold_exact (idxs_ds : List Nat)
    (hwf : ∀ j ∈ idxs_ds, j < idxs_ds.length) (d : Nat)
    (hd : ∀ v < idxs_ds.length, indeg idxs_ds v ≤ d)
    (hdeg : ∀ v < idxs_ds.length, indeg idxs_ds v < 256) (k : Nat)
    (hk : k ≤ idxs_ds.length) :
    (usFold idxs_ds d k).1.length = idxs_ds.length ∧
    (usFold idxs_ds d k).2.length = idxs_ds.length ∧
    ∀ v < idxs_ds.length,
      (usFold idxs_ds d k).2.getD v 0 = (usListUpto idxs_ds v k).length ∧
      (usFold idxs_ds d k).1.getD v [] =
        usListUpto idxs_ds v k ++
          List.replicate (d - (usListUpto idxs_ds v k).length) _mv := by
  induction k with
  | zero =>
    refine ⟨by simp [usFold], by simp [usFold], ?_⟩
    intro v hv
    constructor
    · rw [usFold]
      simp only [List.range_zero, List.foldl_nil]
      rw [getD_replicate (0 : Nat) 0 hv]
      rfl
    · rw [usFold]
      simp only [List.range_zero, List.foldl_nil]
      rw [getD_replicate (List.replicate d _mv) [] hv]
      simp [usListUpto]
  | succ k ih =>
    rcases ih (by omega) with ⟨hlen1, hlen2, hv_all⟩
    rw [usFold_succ]
    rw [usStep]
    by_cases hpit : nth idxs_ds k = k
    · rw [if_pos hpit]
      refine ⟨hlen1, hlen2, ?_⟩
      intro v hv
      have hfalse : (k != v && nth idxs_ds k == v) = false := by
        by_cases hkv : k = v
        · simp [hkv]
        · simp only [Bool.and_eq_false_iff, beq_eq_false_iff_ne, ne_eq]
          right
          rw [hpit]
          exact fun h => hkv h
      rw [usListUpto_succ_no idxs_ds hfalse]
      exact hv_all v hv
    · rw [if_neg hpit]
      have hkn : k < idxs_ds.length := by omega
      have hds_lt : nth idxs_ds k < idxs_ds.length := nth_lt hwf hkn
      rcases hv_all (nth idxs_ds k) hds_lt with ⟨hcnt, hrow⟩
      have htrue : (k != nth idxs_ds k && nth idxs_ds k == nth idxs_ds k) = true := by
        simp only [Bool.and_eq_true, bne_iff_ne, ne_eq, beq_iff_eq]
        exact ⟨fun h => hpit h.symm, trivial⟩
      have hnew : usListUpto idxs_ds (nth idxs_ds k) (k + 1) =
          usListUpto idxs_ds (nth idxs_ds k) k ++ [k] :=
        usListUpto_succ_yes idxs_ds htrue
      have hcnt_lt : (usListUpto idxs_ds (nth idxs_ds k) k).length <
          indeg idxs_ds (nth idxs_ds k) := by
        have h1 : (usListUpto idxs_ds (nth idxs_ds k) (k + 1)).length ≤
            indeg idxs_ds (nth idxs_ds k) :=
          usListUpto_length_le_indeg idxs_ds _ (k + 1) hk
        rw [hnew, List.length_append, List.length_cons, List.length_nil] at h1
        omega
      have hcnt_lt_d : (usListUpto idxs_ds (nth idxs_ds k) k).length < d :=
        lt_of_lt_of_le hcnt_lt (hd _ hds_lt)
      have hmod : ((usFold idxs_ds d k).2.getD (nth idxs_ds k) 0 + 1) % 256 =
          (usListUpto idxs_ds (nth idxs_ds k) k).length + 1 := by
        rw [hcnt]
        exact Nat.mod_eq_of_lt (by
          have := hdeg _ hds_lt
          omega)
      refine ⟨by rw [List.length_set]; exact hlen1,
              by rw [List.length_set]; exact hlen2, ?_⟩
      intro v hv
      by_cases hv_ds : v = nth idxs_ds k
      · rw [← hv_ds] at hmod hnew hcnt hrow hcnt_lt_d
        have hvlt1 : v < (usFold idxs_ds d k).1.length := by rw [hlen1]; exact hv
        have hvlt2 : v < (usFold idxs_ds d k).2.length := by rw [hlen2]; exact hv
        constructor
        · rw [← hv_ds, getD_set_self _ hvlt2 _ 0, hmod, hnew]
          simp
        · rw [← hv_ds, getD_set_self _ hvlt1 _ [], hcnt, hrow]
          have hsplit : d - (usListUpto idxs_ds v k).length =
              (d - ((usListUpto idxs_ds v k).length + 1)) + 1 := by omega
          rw [hsplit, List.replicate_succ, set_append_left_length, hnew,
            List.append_assoc, List.singleton_append, List.length_append,
            List.length_cons, List.length_nil]
          rfl
      · have hne : nth idxs_ds k ≠ v := fun h => hv_ds h.symm
        have hfalse : (k != v && nth idxs_ds k == v) = false := by
          simp only [Bool.and_eq_false_iff, beq_eq_false_iff_ne, ne_eq]
          right
          exact hne
        rcases hv_all v hv with ⟨hcv, hrv⟩
        rw [usListUpto_succ_no idxs_ds hfalse]
        exact ⟨by rw [getD_set_of_ne _ hne _ 0]; exact hcv,
               by rw [getD_set_of_ne _ hne _ []]; exact hrv⟩

theorem n_upstream_eq_map (idxs_ds : List Nat)
    (hsmall : ∀ u < idxs_ds.length, indeg idxs_ds u < 256) :
    n_upstream idxs_ds = (List.range idxs_ds.length).map (indeg idxs_ds) := by
  apply List.ext_getElem
  · rw [n_upstream_length]; simp
  · intro i h1 h2
    have hi : i < idxs_ds.length := by rw [n_upstream_length] at h1; exact h1
    rw [← getD_eq_getElem h1 0, n_upstream_getD idxs_ds hi,
      Nat.mod_eq_of_lt (hsmall i hi)]
    rw [List.getElem_map, List.getElem_range]

theorem d_eq_maxIndeg (idxs_ds : List Nat)
    (hsmall : ∀ u < idxs_ds.length, indeg idxs_ds u < 256) :
    (n_upstream idxs_ds).foldl max 0 = maxIndeg idxs_ds := by
  rw [n_upstream_eq_map idxs_ds hsmall]
  rfl

/-- C2 (amended): for every well-formed downstream array in which every cell's
in-degree is below 256 (so that the `np.uint8` counters of the builder do not
wrap), the row `idxs_us[idxs_ds[i]]` contains `i` for every non-pit `i`, every
row is exactly the scan-ordered upstream cells left-packed and padded with the
sentinel to width `d = maxIndeg`, and no row holds more than `d` (in fact more
than its in-degree) non-sentinel entries.  Without the in-degree bound the
claim fails: see `C2_counterexample`. -/
theorem C2_upstream_table_rows (idxs_ds : List Nat)
    (hn : idxs_ds.length ≤ _mv)
    (hwf : ∀ j ∈ idxs_ds, j < idxs_ds.length)
    (hdeg : ∀ v < idxs_ds.length, indeg idxs_ds v < 256) :
    (∀ i < idxs_ds.length, nth idxs_ds i ≠ i →
      i ∈ (_idxs_us idxs_ds).getD (nth idxs_ds i) []) ∧
    (∀ v < idxs_ds.length,
      (_idxs_us idxs_ds).getD v [] =
        usList idxs_ds v ++
          List.replicate (maxIndeg idxs_ds - indeg idxs_ds v) _mv ∧
      ((_idxs_us idxs_ds).getD v []).length = maxIndeg idxs_ds ∧
      ((_idxs_us idxs_ds).getD v []).filter (fun j => j != _mv) =
        usList idxs_ds v ∧
      (usList idxs_ds v).length = indeg idxs_ds v ∧
      indeg idxs_ds v ≤ maxIndeg idxs_ds) := by
  have htbl : _idxs_us idxs_ds =
      (usFold idxs_ds (maxIndeg idxs_ds) idxs_ds.length).1 := by
    rw [_idxs_us_eq_usFold, d_eq_maxIndeg idxs_ds hdeg]
  have hmain := usFold_exact idxs_ds hwf (maxIndeg idxs_ds)
    (fun v hv => indeg_le_maxIndeg idxs_ds hv) hdeg idxs_ds.length (le_refl _)
  have hrow : ∀ v, v < idxs_ds.length →
      (_idxs_us idxs_ds).getD v [] =
        usList idxs_ds v ++
          List.replicate (maxIndeg idxs_ds - indeg idxs_ds v) _mv := by
    intro v hv
    rw [htbl, (hmain.2.2 v hv).2]
    have : usListUpto idxs_ds v idxs_ds.length = usList idxs_ds v := rfl
    rw [this, usList_length]
  refine ⟨?_, ?_⟩
  · intro i hi hnp
    have hds_lt : nth idxs_ds i < idxs_ds.length := nth_lt hwf hi
    rw [hrow _ hds_lt]
    apply List.mem_append_left
    rw [usList, List.mem_filter]
    refine ⟨List.mem_range.mpr hi, ?_⟩
    simp only [Bool.and_eq_true, bne_iff_ne, ne_eq, beq_iff_eq]
    exact ⟨fun h => hnp h.symm, trivial⟩
  · intro v hv
    have hlen_us : (usList idxs_ds v).length = indeg idxs_ds v :=
      usList_length idxs_ds v
    have hle : indeg idxs_ds v ≤ maxIndeg idxs_ds := indeg_le_maxIndeg idxs_ds hv
    refine ⟨hrow v hv, ?_, ?_, hlen_us, hle⟩
    · rw [hrow v hv, List.length_append, List.length_replicate, hlen_us]
      omega
    · rw [hrow v hv, List.filter_append]
      have h1 : (usList idxs_ds v).filter (fun j => j != _mv) = usList idxs_ds v := by
        rw [List.filter_eq_self]
        intro a ha
        have : a < idxs_ds.length := List.mem_range.mp (List.mem_filter.mp ha).1
        simp only [bne_iff_ne, ne_eq]
        omega
      have h2 : (List.replicate (maxIndeg idxs_ds - indeg idxs_ds v) _mv).filter
          (fun j => j != _mv) = [] := by
        rw [List.filter_eq_nil_iff]
        intro a ha
        rw [List.eq_of_mem_replicate ha]
        simp
      rw [h1, h2, List.append_nil]

/-- C2 witness: a concrete instantiation of `C2_upstream_table_rows` on the
forest `[1, 2, 2]`: the non-pit cell 0 sits in the row of its downstream cell,
and the row of the pit 2 is its upstream cell list padded to width `d`. -/
theorem C2_upstream_table_rows_witness :
    0 ∈ (_idxs_us [1, 2, 2]).getD (nth [1, 2, 2] 0) [] ∧
    (_idxs_us [1, 2, 2]).getD 2 [] =
      usList [1, 2, 2] 2 ++
        List.replicate (maxIndeg [1, 2, 2] - indeg [1, 2, 2] 2) _mv :=
  have h := C2_upstream_table_rows [1, 2, 2] (by decide) (by decide) (by decide)
  ⟨h.1 0 (by decide) (by decide), (h.2 2 (by decide)).1⟩

theorem usFold_rows_nil (idxs_ds : List Nat) (l : List Nat) :
    ∀ (t : List (List Nat)) (c : List Nat), (∀ r ∈ t, r = ([] : List Nat)) →
      ∀ r ∈ (l.foldl (usStep idxs_ds) (t, c)).1, r = ([] : List Nat) := by
  induction l with
  | nil => intro t c h; exact h
  | cons x xs ih =>
    intro t c h
    rw [List.foldl_cons]
    have hstep : ∀ r ∈ (usStep idxs_ds (t, c) x).1, r = ([] : List Nat) := by
      rw [usStep]
      by_cases hp : nth idxs_ds x = x
      · rw [if_pos hp]; exact h
      · rw [if_neg hp]
        intro r hr
        rcases List.mem_or_eq_of_mem_set hr with hmem | hnewr
        · exact h r hmem
        · have hrow : (t.getD (nth idxs_ds x) []) = ([] : List Nat) := by
            rcases getD_mem_or t (nth idxs_ds x) [] with hm | hd
            · exact h _ hm
            · exact hd
          rw [hnewr, hrow]
          rfl
    exact ih _ _ hstep

theorem nth_wrap_input : ∀ i < 257, nth (0 :: List.replicate 256 0) i = 0 := by
  intro i hi
  cases i with
  | zero => rfl
  | succ j =>
    rw [nth, List.getD_cons_succ]
    exact getD_replicate 0 _mv (by omega)

theorem countP_ne_zero_range (n : Nat) :
    List.countP (fun i => i != 0) (List.range (n + 1)) = n := by
  induction n with
  | zero => rfl
  | succ n ih =>
    rw [List.range_succ, List.countP_append, ih]
    simp

theorem indeg_wrap_zero : indeg (0 :: List.replicate 256 0) 0 = 256 := by
  have hlen : (0 :: List.replicate 256 0).length = 257 := by
    rw [List.length_cons, List.length_replicate]
  rw [indeg, hlen]
  have hcongr : ∀ x ∈ List.range 257,
      (x != 0 && nth (0 :: List.replicate 256 0) x == 0) = true ↔ (x != 0) = true := by
    intro x hx
    rw [nth_wrap_input x (List.mem_range.mp hx)]
    simp
  rw [List.countP_congr hcongr]
  exact countP_ne_zero_range 256

theorem indeg_wrap_other : ∀ v, v ≠ 0 → indeg (0 :: List.replicate 256 0) v = 0 := by
  intro v hv
  have hlen : (0 :: List.replicate 256 0).length = 257 := by
    rw [List.length_cons, List.length_replicate]
  rw [indeg, hlen, List.countP_eq_zero]
  intro a ha
  rw [nth_wrap_input a (List.mem_range.mp ha)]
  simp only [Bool.and_eq_true, bne_iff_ne, ne_eq, beq_iff_eq, not_and]
  intro _
  exact fun h => hv h.symm

theorem foldl_max_all_zero : ∀ (l : List Nat), (∀ x ∈ l, x = 0) →
    ∀ a, l.foldl max a = a := by
  intro l
  induction l with
  | nil => intro _ a; rfl
  | cons y t ih =>
    intro h a
    rw [List.foldl_cons]
    have hy : y = 0 := h y (List.mem_cons_self y t)
    rw [hy, Nat.max_zero]
    exact ih (fun x hx => h x (List.mem_cons_of_mem _ hx)) a

theorem d_wrap_zero : (n_upstream (0 :: List.replicate 256 0)).foldl max 0 = 0 := by
  apply foldl_max_all_zero
  intro x hx
  rcases List.mem_iff_getElem.mp hx with ⟨i, hilt, hget⟩
  have hlen : (n_upstream (0 :: List.replicate 256 0)).length = 257 := by
    rw [n_upstream_length, List.length_cons, List.length_replicate]
  have hi : i < (0 :: List.replicate 256 0).length := by
    rw [← n_upstream_length]; exact hilt
  rw [← hget, ← getD_eq_getElem hilt 0, n_upstream_getD _ hi]
  by_cases h0 : i = 0
  · rw [h0, indeg_wrap_zero]
  · rw [indeg_wrap_other i h0]

/-- C2 counterexample: in the downstream array with 257 cells where cell 0 is
a pit and cells 1..256 all target cell 0, the in-degree of cell 0 is 256, the
`np.uint8` counter wraps to 0, the table width `d` collapses to 0, and so the
row of cell 0 is empty: it does not contain the non-pit cell 1, contradicting
the claimed round trip for arbitrary downstream arrays. -/
theorem C2_counterexample :
    nth (0 :: List.replicate 256 0) 1 = 0 ∧
    nth (0 :: List.replicate 256 0) 1 ≠ 1 ∧
    (1 : Nat) ∉ (_idxs_us (0 :: List.replicate 256 0)).getD
      (nth (0 :: List.replicate 256 0) 1) [] := by
  have h1 : nth (0 :: List.replicate 256 0) 1 = 0 := nth_wrap_input 1 (by omega)
  refine ⟨h1, by rw [h1]; omega, ?_⟩
  have hrows : ∀ r ∈ (_idxs_us (0 :: List.replicate 256 0)), r = ([] : List Nat) := by
    rw [_idxs_us_eq_usFold, d_wrap_zero]
    apply usFold_rows_nil
    intro r hr
    rw [List.eq_of_mem_replicate hr]
    rfl
  have hget : (_idxs_us (0 :: List.replicate 256 0)).getD
      (nth (0 :: List.replicate 256 0) 1) [] = ([] : List Nat) := by
    rcases getD_mem_or (_idxs_us (0 :: List.replicate 256 0))
      (nth (0 :: List.replicate 256 0) 1) [] with hm | hd
    · exact hrows _ hm
    · exact hd
  rw [hget]
  exact List.not_mem_nil 1

/-! ### Generic invariants of the upstream table (C1, C3) -/

theorem mem_getD_lt {α : Type} {t : List α} {v : Nat} {d : α}
    (h : t.getD v d ≠ d) : v < t.length := getD_pos_of_ne h

theorem count_getD_le_flatten (t : List (List Nat)) :
    ∀ (v : Nat) (j : Nat), (t.getD v []).count j ≤ t.flatten.count j := by
  induction t with
  | nil => intro v j; simp [List.getD]
  | cons r rs ih =>
    intro v j
    rw [List.flatten_cons, List.count_append]
    cases v with
    | zero => simp [List.getD_cons_zero]
    | succ w =>
      rw [List.getD_cons_succ]
      exact le_trans (ih w j) (by omega)

theorem count_flatten_set (t : List (List Nat)) :
    ∀ (v : Nat) (r : List Nat) (j : Nat), v < t.length →
      ((t.set v r).flatten.count j) + (t.getD v []).count j =
        t.flatten.count j + r.count j := by
  induction t with
  | nil => intro v r j hv; simp at hv
  | cons r0 rs ih =>
    intro v r j hv
    cases v with
    | zero =>
      simp only [List.set_cons_zero, List.flatten_cons, List.count_append,
        List.getD_cons_zero]
      omega
    | succ w =>
      simp only [List.set_cons_succ, List.flatten_cons, List.count_append,
        List.getD_cons_succ]
      have := ih w r j (by simpa using hv)
      omega

theorem count_set_ne (l : List Nat) :
    ∀ (i : Nat) (a j : Nat), j ≠ a → (l.set i a).count j ≤ l.count j := by
  induction l with
  | nil => intro i a j _; simp
  | cons x xs ih =>
    intro i a j hja
    cases i with
    | zero =>
      simp only [List.set_cons_zero, List.count_cons, beq_iff_eq]
      rw [if_neg (fun h => hja h.symm)]
      omega
    | succ n =>
      simp only [List.set_cons_succ, List.count_cons]
      have := ih n a j hja
      omega

theorem count_set_self (l : List Nat) :
    ∀ (i : Nat) (a : Nat), (l.set i a).count a ≤ l.count a + 1 := by
  induction l with
  | nil => intro i a; simp
  | cons x xs ih =>
    intro i a
    cases i with
    | zero =>
      simp only [List.set_cons_zero, List.count_cons, beq_iff_eq]
      simp only [if_pos trivial, ite_true]
      omega
    | succ n =>
      simp only [List.set_cons_succ, List.count_cons]
      have := ih n a
      omega

theorem usStep_fst (idxs_ds : List Nat) (s : List (List Nat) × List Nat) (i : Nat) :
    (usStep idxs_ds s i).1 =
      if nth idxs_ds i = i then s.1
      else s.1.set (nth idxs_ds i)
        ((s.1.getD (nth idxs_ds i) []).set (s.2.getD (nth idxs_ds i) 0) i) := by
  by_cases h : nth idxs_ds i = i <;> simp [usStep, h]

theorem usFold_fst_length (idxs_ds : List Nat) (d : Nat) :
    ∀ k, (usFold idxs_ds d k).1.length = idxs_ds.length := by
  intro k
  induction k with
  | zero => simp [usFold]
  | succ k ih =>
    rw [usFold_succ]
    rw [usStep_fst]
    by_cases hp : nth idxs_ds k = k
    · rw [if_pos hp]; exact ih
    · rw [if_neg hp]
      simp only [List.length_set]
      exact ih

theorem _idxs_us_length (idxs_ds : List Nat) :
    (_idxs_us idxs_ds).length = idxs_ds.length := by
  rw [_idxs_us_eq_usFold]
  exact usFold_fst_length idxs_ds _ idxs_ds.length

theorem usFold_weak (idxs_ds : List Nat) (d : Nat) (k : Nat) :
    (∀ v j, j ∈ (usFold idxs_ds d k).1.getD v [] → j ≠ _mv →
      (j < k ∧ nth idxs_ds j = v ∧ j ≠ v)) ∧
    (∀ j, j ≠ _mv → (usFold idxs_ds d k).1.flatten.count j ≤ 1 ∧
      (k ≤ j → (usFold idxs_ds d k).1.flatten.count j = 0)) := by
  induction k with
  | zero =>
    constructor
    · intro v j hj hne
      exfalso
      rcases getD_mem_or (usFold idxs_ds d 0).1 v [] with hm | hd
      · have : (usFold idxs_ds d 0).1.getD v [] = List.replicate d _mv :=
          List.eq_of_mem_replicate hm
        rw [this] at hj
        exact hne (List.eq_of_mem_replicate hj)
      · rw [hd] at hj
        exact List.not_mem_nil j hj
    · intro j hne
      have hzero : (usFold idxs_ds d 0).1.flatten.count j = 0 := by
        rw [List.count_eq_zero]
        intro hj
        rcases List.mem_flatten.mp hj with ⟨row, hrow, hjrow⟩
        have : row = List.replicate d _mv := List.eq_of_mem_replicate hrow
        rw [this] at hjrow
        exact hne (List.eq_of_mem_replicate hjrow)
      exact ⟨by omega, fun _ => hzero⟩
  | succ k ih =>
    rcases ih with ⟨ih1, ih2⟩
    have hstep : (usFold idxs_ds d (k + 1)).1 =
        if nth idxs_ds k = k then (usFold idxs_ds d k).1
        else (usFold idxs_ds d k).1.set (nth idxs_ds k)
          (((usFold idxs_ds d k).1.getD (nth idxs_ds k) []).set
            ((usFold idxs_ds d k).2.getD (nth idxs_ds k) 0) k) := by
      rw [usFold_succ, usStep_fst]
    by_cases hp : nth idxs_ds k = k
    · rw [if_pos hp] at hstep
      rw [hstep]
      refine ⟨?_, ?_⟩
      · intro v j hj hne
        rcases ih1 v j hj hne with ⟨h1, h2, h3⟩
        exact ⟨by omega, h2, h3⟩
      · intro j hne
        rcases ih2 j hne with ⟨hle, hfresh⟩
        exact ⟨hle, fun h => hfresh (by omega)⟩
    · rw [if_neg hp] at hstep
      by_cases hds : nth idxs_ds k < idxs_ds.length
      · have hds_lt : nth idxs_ds k < (usFold idxs_ds d k).1.length := by
          rw [usFold_fst_length]; exact hds
        rw [hstep]
        refine ⟨?_, ?_⟩
        · intro v j hj hne
          by_cases hv : v = nth idxs_ds k
          · rw [hv, getD_set_self _ hds_lt _ []] at hj
            rcases List.mem_or_eq_of_mem_set hj with hold | hnewj
            · rcases ih1 _ j hold hne with ⟨h1, h2, h3⟩
              exact ⟨by omega, by rw [hv]; exact h2, by rw [hv]; exact h3⟩
            · rw [hnewj, hv]
              exact ⟨by omega, rfl, fun h => hp h.symm⟩
          · rw [getD_set_of_ne _ (fun h => hv h.symm) _ []] at hj
            rcases ih1 v j hj hne with ⟨h1, h2, h3⟩
            exact ⟨by omega, h2, h3⟩
        · intro j hne
          rcases ih2 j hne with ⟨hle, hfresh⟩
          have hrow_le : ((usFold idxs_ds d k).1.getD (nth idxs_ds k) []).count j ≤
              (usFold idxs_ds d k).1.flatten.count j :=
            count_getD_le_flatten _ _ j
          have hexch := count_flatten_set (usFold idxs_ds d k).1 (nth idxs_ds k)
            (((usFold idxs_ds d k).1.getD (nth idxs_ds k) []).set
              ((usFold idxs_ds d k).2.getD (nth idxs_ds k) 0) k) j hds_lt
          by_cases hjk : j = k
          · have hfresh0 : (usFold idxs_ds d k).1.flatten.count j = 0 :=
              hfresh (by omega)
            have hset : (((usFold idxs_ds d k).1.getD (nth idxs_ds k) []).set
                ((usFold idxs_ds d k).2.getD (nth idxs_ds k) 0) k).count j ≤
                ((usFold idxs_ds d k).1.getD (nth idxs_ds k) []).count j + 1 := by
              rw [hjk]
              exact count_set_self _ _ k
            constructor
            · omega
            · intro h
              omega
          · have hset : (((usFold idxs_ds d k).1.getD (nth idxs_ds k) []).set
                ((usFold idxs_ds d k).2.getD (nth idxs_ds k) 0) k).count j ≤
                ((usFold idxs_ds d k).1.getD (nth idxs_ds k) []).count j :=
              count_set_ne _ _ k j hjk
            refine ⟨by omega, fun h => ?_⟩
            have hfresh0 : (usFold idxs_ds d k).1.flatten.count j = 0 :=
              hfresh (by omega)
            omega
      · have hnoop : (usFold idxs_ds d k).1.set (nth idxs_ds k)
            (((usFold idxs_ds d k).1.getD (nth idxs_ds k) []).set
              ((usFold idxs_ds d k).2.getD (nth idxs_ds k) 0) k) =
            (usFold idxs_ds d k).1 := by
          apply List.set_eq_of_length_le
          rw [usFold_fst_length]
          omega
        rw [hnoop] at hstep
        rw [hstep]
        refine ⟨?_, ?_⟩
        · intro v j hj hne
          rcases ih1 v j hj hne with ⟨h1, h2, h3⟩
          exact ⟨by omega, h2, h3⟩
        · intro j hne
          rcases ih2 j hne with ⟨hle, hfresh⟩
          exact ⟨hle, fun h => hfresh (by omega)⟩

theorem _idxs_us_entries (idxs_ds : List Nat) :
    ∀ v j, j ∈ (_idxs_us idxs_ds).getD v [] → j ≠ _mv →
      (j < idxs_ds.length ∧ nth idxs_ds j = v ∧ j ≠ v) := by
  rw [_idxs_us_eq_usFold]
  exact (usFold_weak idxs_ds _ idxs_ds.length).1

theorem _idxs_us_count (idxs_ds : List Nat) :
    ∀ j, j ≠ _mv → (_idxs_us idxs_ds).flatten.count j ≤ 1 := by
  rw [_idxs_us_eq_usFold]
  intro j hne
  exact ((usFold_weak idxs_ds _ idxs_ds.length).2 j hne).1

/-! ### Breadth-first frontiers from the pits (C1, C3) -/

theorem upstream_nil (idxs_us : List (List Nat)) : upstream [] idxs_us = [] := rfl

theorem upstream_cons (v : Nat) (F : List Nat) (idxs_us : List (List Nat)) :
    upstream (v :: F) idxs_us =
      (idxs_us.getD v []).filter (fun j => j != _mv) ++ upstream F idxs_us := by
  rw [upstream, upstream, List.map_cons, List.flatten_cons, List.filter_append]

theorem mem_upstream {j : Nat} {F : List Nat} {idxs_us : List (List Nat)} :
    j ∈ upstream F idxs_us ↔
      (j ≠ _mv ∧ ∃ v ∈ F, j ∈ idxs_us.getD v []) := by
  rw [upstream]
  constructor
  · intro h
    rcases List.mem_filter.mp h with ⟨hj, hb⟩
    rcases List.mem_flatten.mp hj with ⟨row, hrow, hjrow⟩
    rcases List.mem_map.mp hrow with ⟨v, hv, hveq⟩
    exact ⟨by simpa using hb, v, hv, hveq ▸ hjrow⟩
  · intro ⟨hne, v, hv, hjrow⟩
    apply List.mem_filter.mpr
    refine ⟨List.mem_flatten.mpr ⟨idxs_us.getD v [], List.mem_map.mpr ⟨v, hv, rfl⟩, hjrow⟩, ?_⟩
    simpa using hne

theorem mv_not_mem_upstream (F : List Nat) (idxs_us : List (List Nat)) :
    _mv ∉ upstream F idxs_us := by
  intro h
  exact (mem_upstream.mp h).1 rfl

theorem mem_row_lt {j v : Nat} {idxs_us : List (List Nat)}
    (h : j ∈ idxs_us.getD v []) : v < idxs_us.length := by
  apply mem_getD_lt
  intro heq
  rw [heq] at h
  exact List.not_mem_nil j h

theorem count_two_rows (idxs_us : List (List Nat)) :
    ∀ (a b j : Nat), a < b → b < idxs_us.length →
      (idxs_us.getD a []).count j + (idxs_us.getD b []).count j ≤
        idxs_us.flatten.count j := by
  induction idxs_us with
  | nil => intro a b j _ hb; simp at hb
  | cons r rs ih =>
    intro a b j hab hb
    rw [List.flatten_cons, List.count_append]
    cases a with
    | zero =>
      cases b with
      | zero => omega
      | succ w =>
        rw [List.getD_cons_zero, List.getD_cons_succ]
        have := count_getD_le_flatten rs w j
        omega
    | succ u =>
      cases b with
      | zero => omega
      | succ w =>
        rw [List.getD_cons_succ, List.getD_cons_succ]
        have := ih u w j (by omega) (by simpa using hb)
        omega

theorem upstream_count_le_one (idxs_us : List (List Nat))
    (h2 : ∀ j, j ≠ _mv → idxs_us.flatten.count j ≤ 1) :
    ∀ (F : List Nat), F.Nodup → ∀ j, (upstream F idxs_us).count j ≤ 1 := by
  intro F
  induction F with
  | nil => intro _ j; simp [upstream_nil]
  | cons v F' ih =>
    intro hnd j
    rcases List.nodup_cons.mp hnd with ⟨hvF, hnd'⟩
    rw [upstream_cons, List.count_append]
    by_cases hjmv : j = _mv
    · have hz1 : ((idxs_us.getD v []).filter (fun j => j != _mv)).count j = 0 := by
        rw [List.count_eq_zero]
        intro hmem
        have := (List.mem_filter.mp hmem).2
        rw [hjmv] at this
        simp at this
      have hz2 : (upstream F' idxs_us).count j = 0 := by
        rw [List.count_eq_zero, hjmv]
        exact mv_not_mem_upstream F' idxs_us
      omega
    · have hrow1 : (idxs_us.getD v []).count j ≤ 1 := by
        by_cases hvlen : v < idxs_us.length
        · exact le_trans (count_getD_le_flatten idxs_us v j) (h2 j hjmv)
        · have : idxs_us.getD v [] = [] := by
            rw [List.getD_eq_getElem?_getD, List.getElem?_eq_none (by omega)]
            rfl
          rw [this]
          simp
      have hfilter_le : ((idxs_us.getD v []).filter (fun j => j != _mv)).count j ≤
          (idxs_us.getD v []).count j :=
        List.Sublist.count_le (List.filter_sublist _) j
      by_cases hjrow : j ∈ (idxs_us.getD v []).filter (fun j => j != _mv)
      · have hjrow' : j ∈ idxs_us.getD v [] := (List.mem_filter.mp hjrow).1
        have hrest : (upstream F' idxs_us).count j = 0 := by
          rw [List.count_eq_zero]
          intro hmem
          rcases (mem_upstream.mp hmem) with ⟨_, v', hv', hjv'⟩
          have hne_v : v ≠ v' := fun h => hvF (h ▸ hv')
          have hv_lt : v < idxs_us.length := mem_row_lt hjrow'
          have hv'_lt : v' < idxs_us.length := mem_row_lt hjv'
          have hc1 : 1 ≤ (idxs_us.getD v []).count j :=
            List.count_pos_iff.mpr hjrow'
          have hc2 : 1 ≤ (idxs_us.getD v' []).count j :=
            List.count_pos_iff.mpr hjv'
          rcases Nat.lt_or_ge v v' with hlt | hge
          · have := count_two_rows idxs_us v v' j hlt hv'_lt
            have := h2 j hjmv
            omega
          · have hgt : v' < v := by omega
            have := count_two_rows idxs_us v' v j hgt hv_lt
            have := h2 j hjmv
            omega
        omega
      · have hz : ((idxs_us.getD v []).filter (fun j => j != _mv)).count j = 0 :=
          List.count_eq_zero.mpr hjrow
        have := ih hnd' j
        omega

theorem upstream_nodup (idxs_us : List (List Nat))
    (h2 : ∀ j, j ≠ _mv → idxs_us.flatten.count j ≤ 1)
    (F : List Nat) (hF : F.Nodup) : (upstream F idxs_us).Nodup :=
  List.nodup_iff_count_le_one.mpr (upstream_count_le_one idxs_us h2 F hF)

theorem mem_pit_indices {idxs_ds : List Nat} {i : Nat} :
    i ∈ pit_indices idxs_ds ↔ i < idxs_ds.length ∧ i = nth idxs_ds i := by
  rw [pit_indices, List.mem_filter, List.mem_range]
  simp [beq_iff_eq]

theorem pit_indices_nodup (idxs_ds : List Nat) : (pit_indices idxs_ds).Nodup :=
  List.Nodup.filter _ (List.nodup_range _)

theorem frontiers_shift (idxs_us : List (List Nat)) (F : List Nat) :
    ∀ k, frontiers idxs_us (upstream F idxs_us) k = frontiers idxs_us F (k + 1) := by
  intro k
  induction k with
  | zero => rfl
  | succ k ih =>
    rw [frontiers, ih]
    rfl

theorem frontier_succ_mem (idxs_ds : List Nat) (idxs_us : List (List Nat))
    (h1 : ∀ v j, j ∈ idxs_us.getD v [] → j ≠ _mv →
      (j < idxs_ds.length ∧ nth idxs_ds j = v ∧ j ≠ v))
    {F : List Nat} {k i : Nat} (h : i ∈ frontiers idxs_us F (k + 1)) :
    nth idxs_ds i ∈ frontiers idxs_us F k ∧ i ≠ nth idxs_ds i ∧
      i < idxs_ds.length := by
  rw [frontiers] at h
  rcases mem_upstream.mp h with ⟨hne, v, hv, hrow⟩
  rcases h1 v i hrow hne with ⟨hlt, hds, hnev⟩
  exact ⟨hds ▸ hv, hds ▸ fun hh => hnev (hds ▸ hh), hlt⟩

theorem frontiers_mem_lt (idxs_ds : List Nat) (idxs_us : List (List Nat))
    (h1 : ∀ v j, j ∈ idxs_us.getD v [] → j ≠ _mv →
      (j < idxs_ds.length ∧ nth idxs_ds j = v ∧ j ≠ v)) :
    ∀ k i, i ∈ frontiers idxs_us (pit_indices idxs_ds) k →
      i < idxs_ds.length := by
  intro k
  cases k with
  | zero => intro i hi; exact (mem_pit_indices.mp hi).1
  | succ k => intro i hi; exact (frontier_succ_mem idxs_ds idxs_us h1 hi).2.2

theorem frontiers_disjoint (idxs_ds : List Nat) (idxs_us : List (List Nat))
    (h1 : ∀ v j, j ∈ idxs_us.getD v [] → j ≠ _mv →
      (j < idxs_ds.length ∧ nth idxs_ds j = v ∧ j ≠ v)) :
    ∀ (a b i : Nat), a < b →
      i ∈ frontiers idxs_us (pit_indices idxs_ds) a →
      i ∈ frontiers idxs_us (pit_indices idxs_ds) b → False := by
  intro a
  induction a with
  | zero =>
    intro b i hab ha hb
    have hpit : i = nth idxs_ds i := (mem_pit_indices.mp ha).2
    cases b with
    | zero => omega
    | succ b' =>
      exact (frontier_succ_mem idxs_ds idxs_us h1 hb).2.1 hpit
  | succ a' ih =>
    intro b i hab ha hb
    cases b with
    | zero => omega
    | succ b' =>
      have h1a := frontier_succ_mem idxs_ds idxs_us h1 ha
      have h1b := frontier_succ_mem idxs_ds idxs_us h1 hb
      exact ih b' (nth idxs_ds i) (by omega) h1a.1 h1b.1

theorem frontiers_nodup (idxs_ds : List Nat) (idxs_us : List (List Nat))
    (h2 : ∀ j, j ≠ _mv → idxs_us.flatten.count j ≤ 1) :
    ∀ k, (frontiers idxs_us (pit_indices idxs_ds) k).Nodup := by
  intro k
  induction k with
  | zero => exact pit_indices_nodup idxs_ds
  | succ k ih => exact upstream_nodup idxs_us h2 _ ih

theorem frontiers_empty_stable (idxs_us : List (List Nat)) (F : List Nat)
    {m : Nat} (hm : frontiers idxs_us F m = []) :
    ∀ k, m ≤ k → frontiers idxs_us F k = [] := by
  intro k
  induction k with
  | zero => intro h; rw [Nat.le_zero.mp h] at hm; exact hm
  | succ k ih =>
    intro h
    rcases Nat.lt_or_ge m (k + 1) with hlt | hge
    · have hk : frontiers idxs_us F k = [] := ih (by omega)
      rw [frontiers, hk]
      rfl
    · have : m = k + 1 := by omega
      rw [← this]
      exact hm

theorem frontiers_exists_empty (idxs_ds : List Nat) (idxs_us : List (List Nat))
    (h1 : ∀ v j, j ∈ idxs_us.getD v [] → j ≠ _mv →
      (j < idxs_ds.length ∧ nth idxs_ds j = v ∧ j ≠ v)) :
    ∃ m ≤ idxs_ds.length,
      frontiers idxs_us (pit_indices idxs_ds) (m + 1) = [] := by
  by_contra hcon
  push_neg at hcon
  set n := idxs_ds.length with hn
  set f : Nat → Finset Nat :=
    fun k => (frontiers idxs_us (pit_indices idxs_ds) (k + 1)).toFinset with hf
  have hdisj : ∀ x ∈ Finset.range (n + 1), ∀ y ∈ Finset.range (n + 1),
      x ≠ y → Disjoint (f x) (f y) := by
    intro x _ y _ hxy
    rw [Finset.disjoint_left]
    intro i hix hiy
    rw [hf, List.mem_toFinset] at hix hiy
    rcases Nat.lt_or_ge x y with hlt | hge
    · exact frontiers_disjoint idxs_ds idxs_us h1 (x + 1) (y + 1) i (by omega) hix hiy
    · have : y < x := by omega
      exact frontiers_disjoint idxs_ds idxs_us h1 (y + 1) (x + 1) i (by omega) hiy hix
  have hcard := Finset.card_biUnion hdisj
  have hsub : (Finset.range (n + 1)).biUnion f ⊆ Finset.range n := by
    intro i hi
    rcases Finset.mem_biUnion.mp hi with ⟨k, _, hik⟩
    rw [hf, List.mem_toFinset] at hik
    exact Finset.mem_range.mpr (frontiers_mem_lt idxs_ds idxs_us h1 (k + 1) i hik)
  have hle : ((Finset.range (n + 1)).biUnion f).card ≤ n := by
    have := Finset.card_le_card hsub
    simpa using this
  have hone : ∀ k ∈ Finset.range (n + 1), 1 ≤ (f k).card := by
    intro k hk
    rcases List.exists_mem_of_ne_nil _ (hcon k (by
      have := Finset.mem_range.mp hk
      omega)) with ⟨x, hx⟩
    have : x ∈ f k := by rw [hf, List.mem_toFinset]; exact hx
    exact Finset.card_pos.mpr ⟨x, this⟩
  have hsum : (n + 1) ≤ Finset.sum (Finset.range (n + 1)) (fun k => (f k).card) := by
    have h1' := Finset.sum_le_sum hone
    rw [Finset.sum_const] at h1'
    simpa using h1'
  rw [← hcard] at hsum
  omega

theorem networkTreeGo_eq (idxs_us : List (List Nat)) (m : Nat) :
    ∀ (fuel : Nat) (F : List Nat), m < fuel →
      frontiers idxs_us F (m + 1) = [] →
      (∀ k < m, frontiers idxs_us F (k + 1) ≠ []) →
      networkTreeGo idxs_us fuel F =
        (List.range m).map (fun k => frontiers idxs_us F (k + 1)) := by
  induction m with
  | zero =>
    intro fuel F hfuel hm _
    cases fuel with
    | zero => omega
    | succ f =>
      rw [networkTreeGo]
      have hm' : upstream F idxs_us = [] := hm
      rw [if_pos hm']
      rfl
  | succ m ih =>
    intro fuel F hfuel hm hmin
    cases fuel with
    | zero => omega
    | succ f =>
      rw [networkTreeGo]
      have hne : upstream F idxs_us ≠ [] := hmin 0 (by omega)
      rw [if_neg hne]
      have ihres := ih f (upstream F idxs_us) (by omega)
        (by rw [frontiers_shift]; exact hm)
        (by
          intro k hk
          rw [frontiers_shift]
          exact hmin (k + 1) (by omega))
      rw [ihres]
      rw [List.range_succ_eq_map, List.map_cons, List.map_map]
      congr 1
      apply List.map_congr_left
      intro k _
      rw [Function.comp]
      rw [frontiers_shift]

/-! ### The toggle-based marking of `loop_indices` (C1, C3) -/

theorem npFlip_length (u : List Nat) :
    ∀ (a : List Bool) (j0 : Nat), (npFlip u a j0).length = a.length := by
  intro a
  induction a with
  | nil => intro j0; rfl
  | cons b rest ih => intro j0; rw [npFlip, List.length_cons, List.length_cons, ih]

theorem npFlip_getD (u : List Nat) :
    ∀ (a : List Bool) (j0 i : Nat), i < a.length →
      (npFlip u a j0).getD i false =
        (if (j0 + i) ∈ u then !(a.getD i false) else a.getD i false) := by
  intro a
  induction a with
  | nil => intro j0 i hi; simp at hi
  | cons b rest ih =>
    intro j0 i hi
    cases i with
    | zero =>
      rw [npFlip]
      simp only [List.getD_cons_zero, Nat.add_zero]
      by_cases hmem : j0 ∈ u
      · rw [if_pos (by simpa [List.elem_iff] using hmem), if_pos hmem]
      · rw [if_neg (by simpa [List.elem_iff] using hmem), if_neg hmem]
    | succ i' =>
      rw [npFlip]
      simp only [List.getD_cons_succ]
      rw [ih (j0 + 1) i' (by simpa using hi)]
      have : j0 + 1 + i' = j0 + (i' + 1) := by omega
      rw [this]

theorem npSetTrue_length (idxs : List Nat) :
    ∀ (a : List Bool), (npSetTrue a idxs).length = a.length := by
  induction idxs with
  | nil => intro a; rfl
  | cons x xs ih =>
    intro a
    have hfold : npSetTrue a (x :: xs) = npSetTrue (a.set x true) xs := rfl
    rw [hfold, ih, List.length_set]

theorem npSetTrue_getD (idxs : List Nat) :
    ∀ (a : List Bool) (i : Nat), i < a.length →
      ((npSetTrue a idxs).getD i false = true ↔
        (a.getD i false = true ∨ i ∈ idxs)) := by
  induction idxs with
  | nil =>
    intro a i hi
    simp [npSetTrue]
  | cons x xs ih =>
    intro a i hi
    rw [npSetTrue, List.foldl_cons]
    have hfold : (xs.foldl (fun a j => a.set j true) (a.set x true)) =
        npSetTrue (a.set x true) xs := rfl
    rw [hfold, ih (a.set x true) i (by simpa using hi)]
    by_cases hix : i = x
    · rw [← hix]
      rw [getD_set_self a hi true false]
      simp [List.mem_cons, hix]
    · rw [getD_set_of_ne a (fun h => hix h.symm) true false]
      simp only [List.mem_cons]
      constructor
      · intro h
        rcases h with h | h
        · exact Or.inl h
        · exact Or.inr (Or.inr h)
      · intro h
        rcases h with h | h | h
        · exact Or.inl h
        · exact absurd h hix
        · exact Or.inr h

theorem loopIndicesGo_length (idxs_us : List (List Nat)) :
    ∀ (fuel : Nat) (F : List Nat) (a : List Bool),
      (loopIndicesGo idxs_us fuel F a).length = a.length := by
  intro fuel
  induction fuel with
  | zero => intro F a; rfl
  | succ f ih =>
    intro F a
    rw [loopIndicesGo]
    by_cases h : upstream F idxs_us = []
    · rw [if_pos h]
    · rw [if_neg h, ih, npFlip_length]

theorem exists_ge_one_split (P : Nat → Prop) :
    (∃ k, 1 ≤ k ∧ P k) ↔ (P 1 ∨ ∃ k, 2 ≤ k ∧ P k) := by
  constructor
  · intro ⟨k, hk1, hpk⟩
    rcases Nat.lt_or_ge k 2 with hlt | hge
    · have : k = 1 := by omega
      exact Or.inl (this ▸ hpk)
    · exact Or.inr ⟨k, hge, hpk⟩
  · intro h
    rcases h with h | ⟨k, hk2, hpk⟩
    · exact ⟨1, le_refl 1, h⟩
    · exact ⟨k, by omega, hpk⟩

theorem loopIndicesGo_getD (idxs_us : List (List Nat)) :
    ∀ (fuel : Nat) (F : List Nat) (a : List Bool) (i : Nat),
      i < a.length →
      (∃ m < fuel, frontiers idxs_us F (m + 1) = []) →
      (∀ p q, i ∈ frontiers idxs_us F p → i ∈ frontiers idxs_us F q → p = q) →
      ((loopIndicesGo idxs_us fuel F a).getD i false = true ↔
        Xor' (a.getD i false = true)
          (∃ k, 1 ≤ k ∧ i ∈ frontiers idxs_us F k)) := by
  intro fuel
  induction fuel with
  | zero =>
    intro F a i _ hex _
    rcases hex with ⟨m, hm, _⟩
    omega
  | succ f ih =>
    intro F a i hi hex huniq
    rw [loopIndicesGo]
    by_cases hemp : upstream F idxs_us = []
    · rw [if_pos hemp]
      have hemp1 : frontiers idxs_us F 1 = [] := hemp
      have hnone : ¬∃ k, 1 ≤ k ∧ i ∈ frontiers idxs_us F k := by
        intro ⟨k, hk1, hmem⟩
        have hkf : frontiers idxs_us F k = [] :=
          frontiers_empty_stable idxs_us F hemp1 k hk1
        rw [hkf] at hmem
        exact List.not_mem_nil i hmem
      rw [Xor']
      constructor
      · intro h
        exact Or.inl ⟨h, hnone⟩
      · intro h
        rcases h with ⟨h, _⟩ | ⟨h, _⟩
        · exact h
        · exact absurd h hnone
    · rw [if_neg hemp]
      have hex' : ∃ m < f, frontiers idxs_us (upstream F idxs_us) (m + 1) = [] := by
        rcases hex with ⟨m, hmf, hm⟩
        cases m with
        | zero => exact absurd hm hemp
        | succ m' =>
          refine ⟨m', by omega, ?_⟩
          rw [frontiers_shift]
          exact hm
      have huniq' : ∀ p q, i ∈ frontiers idxs_us (upstream F idxs_us) p →
          i ∈ frontiers idxs_us (upstream F idxs_us) q → p = q := by
        intro p q hp hq
        rw [frontiers_shift] at hp hq
        have := huniq (p + 1) (q + 1) hp hq
        omega
      have hlen : i < (npFlip (upstream F idxs_us) a 0).length := by
        rw [npFlip_length]
        exact hi
      rw [ih (upstream F idxs_us) (npFlip (upstream F idxs_us) a 0) i hlen hex' huniq']
      rw [npFlip_getD (upstream F idxs_us) a 0 i hi]
      have hzero : 0 + i = i := by omega
      rw [hzero]
      have hshift_ex : (∃ k, 1 ≤ k ∧ i ∈ frontiers idxs_us (upstream F idxs_us) k) ↔
          (∃ k, 2 ≤ k ∧ i ∈ frontiers idxs_us F k) := by
        constructor
        · intro ⟨k, hk1, hmem⟩
          rw [frontiers_shift] at hmem
          exact ⟨k + 1, by omega, hmem⟩
        · intro ⟨k, hk2, hmem⟩
          cases k with
          | zero => omega
          | succ k' =>
            refine ⟨k', by omega, ?_⟩
            rw [frontiers_shift]
            exact hmem
      rw [hshift_ex]
      have htarget : (∃ k, 1 ≤ k ∧ i ∈ frontiers idxs_us F k) ↔
          (i ∈ upstream F idxs_us ∨ ∃ k, 2 ≤ k ∧ i ∈ frontiers idxs_us F k) := by
        have := exists_ge_one_split (fun k => i ∈ frontiers idxs_us F k)
        rw [this]
        have h1 : i ∈ frontiers idxs_us F 1 ↔ i ∈ upstream F idxs_us := Iff.rfl
        rw [h1]
      rw [htarget]
      have hexcl : ¬(i ∈ upstream F idxs_us ∧
          ∃ k, 2 ≤ k ∧ i ∈ frontiers idxs_us F k) := by
        intro ⟨hmem1, k, hk2, hmemk⟩
        have : 1 = k := huniq 1 k hmem1 hmemk
        omega
      by_cases hB : i ∈ upstream F idxs_us
      · rw [if_pos hB]
        have hC : ¬∃ k, 2 ≤ k ∧ i ∈ frontiers idxs_us F k :=
          fun hc => hexcl ⟨hB, hc⟩
        cases hA : a.getD i false <;> simp [hA, Xor', hB, hC]
      · rw [if_neg hB]
        rw [Xor', Xor']
        constructor
        · intro h
          rcases h with ⟨h, hn⟩ | ⟨h, hn⟩
          · refine Or.inl ⟨h, ?_⟩
            intro hcon
            rcases hcon with hcon | hcon
            · exact hB hcon
            · exact hn hcon
          · exact Or.inr ⟨Or.inr h, hn⟩
        · intro h
          rcases h with ⟨h, hn⟩ | ⟨h, hn⟩
          · exact Or.inl ⟨h, fun hc => hn (Or.inr hc)⟩
          · rcases h with h | h
            · exact absurd h hB
            · exact Or.inr ⟨h, hn⟩

theorem loop_indices_char (idxs_ds : List Nat) (idxs_us : List (List Nat))
    (hn : idxs_ds.length ≤ _mv)
    (h1 : ∀ v j, j ∈ idxs_us.getD v [] → j ≠ _mv →
      (j < idxs_ds.length ∧ nth idxs_ds j = v ∧ j ≠ v)) :
    ∀ i, i ∈ loop_indices idxs_ds idxs_us ↔
      (i < idxs_ds.length ∧
       ¬ reachable idxs_us (pit_indices idxs_ds) i ∧
       nth idxs_ds i ≠ _mv) := by
  intro i
  rw [loop_indices, List.mem_filter, List.mem_range]
  by_cases hi : i < idxs_ds.length
  · set nl1 := npSetTrue (idxs_ds.map (fun j => j == _mv)) (pit_indices idxs_ds)
      with hnl1def
    set nlF := loopIndicesGo idxs_us (idxs_ds.length + 1) (pit_indices idxs_ds) nl1
      with hnlFdef
    have hlen0 : (idxs_ds.map (fun j => j == _mv)).length = idxs_ds.length := by
      rw [List.length_map]
    have hlen1 : nl1.length = idxs_ds.length := by
      rw [hnl1def, npSetTrue_length, hlen0]
    have hlenF : nlF.length = idxs_ds.length := by
      rw [hnlFdef, loopIndicesGo_length, hlen1]
    have hgetDi : nlF.getD i true = nlF.getD i false :=
      getD_irrel (by rw [hlenF]; exact hi) true false
    have hex : ∃ m < idxs_ds.length + 1,
        frontiers idxs_us (pit_indices idxs_ds) (m + 1) = [] := by
      rcases frontiers_exists_empty idxs_ds idxs_us h1 with ⟨m, hmle, hm⟩
      exact ⟨m, by omega, hm⟩
    have huniq : ∀ p q, i ∈ frontiers idxs_us (pit_indices idxs_ds) p →
        i ∈ frontiers idxs_us (pit_indices idxs_ds) q → p = q := by
      intro p q hp hq
      by_contra hne
      rcases Nat.lt_or_ge p q with hlt | hge
      · exact frontiers_disjoint idxs_ds idxs_us h1 p q i hlt hp hq
      · exact frontiers_disjoint idxs_ds idxs_us h1 q p i (by omega) hq hp
    have hmain := loopIndicesGo_getD idxs_us (idxs_ds.length + 1)
      (pit_indices idxs_ds) nl1 i (by rw [hlen1]; exact hi) hex huniq
    have hset := npSetTrue_getD (pit_indices idxs_ds)
      (idxs_ds.map (fun j => j == _mv)) i (by rw [hlen0]; exact hi)
    have hmap : ((idxs_ds.map (fun j => j == _mv)).getD i false = true) ↔
        nth idxs_ds i = _mv := by
      rw [getD_eq_getElem (by rw [hlen0]; exact hi) false, List.getElem_map,
        beq_iff_eq, nth, getD_eq_getElem hi _mv]
    have hreach_split : reachable idxs_us (pit_indices idxs_ds) i ↔
        (i ∈ pit_indices idxs_ds ∨
          ∃ k, 1 ≤ k ∧ i ∈ frontiers idxs_us (pit_indices idxs_ds) k) := by
      rw [reachable]
      constructor
      · intro ⟨k, hk⟩
        cases k with
        | zero => exact Or.inl hk
        | succ k' => exact Or.inr ⟨k' + 1, by omega, hk⟩
      · intro h
        rcases h with h | ⟨k, _, hk⟩
        · exact ⟨0, h⟩
        · exact ⟨k, hk⟩
    have hmv_imp : nth idxs_ds i = _mv →
        (i ∉ pit_indices idxs_ds ∧
         ¬∃ k, 1 ≤ k ∧ i ∈ frontiers idxs_us (pit_indices idxs_ds) k) := by
      intro hmv
      constructor
      · intro hp
        have hpe := (mem_pit_indices.mp hp).2
        have : i = _mv := hpe.trans hmv
        omega
      · intro ⟨k, hk1, hk⟩
        cases k with
        | zero => omega
        | succ k' =>
          have hmem := (frontier_succ_mem idxs_ds idxs_us h1 hk).1
          have hlt := frontiers_mem_lt idxs_ds idxs_us h1 k' (nth idxs_ds i) hmem
          omega
    have hpit_imp : i ∈ pit_indices idxs_ds →
        ¬∃ k, 1 ≤ k ∧ i ∈ frontiers idxs_us (pit_indices idxs_ds) k := by
      intro hp ⟨k, hk1, hk⟩
      have := huniq 0 k hp hk
      omega
    constructor
    · intro ⟨_, hb⟩
      have hb' : nlF.getD i false = false := by
        rw [← hgetDi]
        simpa using hb
      have hnot : ¬(nlF.getD i false = true) := by rw [hb']; simp
      rw [hmain] at hnot
      refine ⟨hi, ?_, ?_⟩
      · rw [hreach_split]
        intro hre
        apply hnot
        rcases hre with hp | hk
        · exact Or.inl ⟨hset.mpr (Or.inr hp), hpit_imp hp⟩
        · refine Or.inr ⟨hk, ?_⟩
          intro h1'
          rcases hset.mp h1' with hmv | hp
          · exact (hmv_imp (hmap.mp hmv)).2 hk
          · exact hpit_imp hp hk
      · intro hmv
        apply hnot
        exact Or.inl ⟨hset.mpr (Or.inl (hmap.mpr hmv)), (hmv_imp hmv).2⟩
    · intro ⟨_, hnre, hmv⟩
      refine ⟨hi, ?_⟩
      have hnot : ¬(nlF.getD i false = true) := by
        rw [hmain]
        intro hx
        rcases hx with ⟨hA, _⟩ | ⟨hQ, _⟩
        · rcases hset.mp hA with hm | hp
          · exact hmv (hmap.mp hm)
          · exact hnre (hreach_split.mpr (Or.inl hp))
        · exact hnre (hreach_split.mpr (Or.inr hQ))
      have hfalse : nlF.getD i false = false := by
        cases h : nlF.getD i false
        · rfl
        · exact absurd h hnot
      rw [hgetDi, hfalse]
      rfl
  · constructor
    · intro ⟨hlt, _⟩
      exact absurd hlt hi
    · intro ⟨hlt, _⟩
      exact absurd hlt hi

/-- C3 counterexample: for the one-cell array whose only cell has the sentinel
downstream target, cell 0 is unreachable from the (empty) pit set, yet loop
detection reports no loop members: a sentinel-target cell is excluded from the
loop set (its `no_loop` flag is initialised to `True` by `idxs_ds == _mv`),
contrary to the claim that such cells are reported. -/
theorem C3_counterexample :
    nth [_mv] 0 = _mv ∧
    loop_indices [_mv] (_idxs_us [_mv]) = [] ∧
    ¬ reachable (_idxs_us [_mv]) (pit_indices [_mv]) 0 := by
  refine ⟨by decide, by decide, ?_⟩
  intro ⟨k, hk⟩
  have hpits : pit_indices [_mv] = [] := by decide
  have hempty : ∀ k, frontiers (_idxs_us [_mv]) ([] : List Nat) k = [] := by
    intro k
    induction k with
    | zero => rfl
    | succ k ih => rw [frontiers, ih]; rfl
  rw [hpits, hempty k] at hk
  exact List.not_mem_nil 0 hk

/-- C3 (amended): loop detection reports exactly the cells that are never
reached by the pit-seeded breadth-first expansion along the upstream table AND
whose downstream target is not the sentinel; cells with a sentinel downstream
target are excluded from the loop set (see `C3_counterexample`), not included
as the claim states. -/
theorem C3_loop_indices_spec (idxs_ds : List Nat) (hn : idxs_ds.length ≤ _mv) :
    ∀ i, i ∈ loop_indices idxs_ds (_idxs_us idxs_ds) ↔
      (i < idxs_ds.length ∧
       ¬ reachable (_idxs_us idxs_ds) (pit_indices idxs_ds) i ∧
       nth idxs_ds i ≠ _mv) :=
  loop_indices_char idxs_ds (_idxs_us idxs_ds) hn (_idxs_us_entries idxs_ds)

/-- C3 witness: a concrete instantiation of `C3_loop_indices_spec` on the
two-cell loop `[1, 0]`. -/
theorem C3_loop_indices_spec_witness :
    0 ∈ loop_indices [1, 0] (_idxs_us [1, 0]) ↔
      (0 < ([1, 0] : List Nat).length ∧
       ¬ reachable (_idxs_us [1, 0]) (pit_indices [1, 0]) 0 ∧
       nth [1, 0] 0 ≠ _mv) :=
  C3_loop_indices_spec [1, 0] (by decide) 0

/-- C1: for every well-formed downstream array, each sparse cell appears in
exactly one level of the network tree built from the pit indices and the
upstream table, or else in the loop-index set, and never in both: the tree
levels and the loop set partition the cells. -/
theorem C1_tree_loop_partition (idxs_ds : List Nat)
    (hn : idxs_ds.length ≤ _mv)
    (hwf : ∀ j ∈ idxs_ds, j < idxs_ds.length) :
    ∀ i < idxs_ds.length,
      (((network_tree (pit_indices idxs_ds) (_idxs_us idxs_ds)).countP
          (fun lvl => decide (i ∈ lvl)) = 1) ∧
        i ∉ loop_indices idxs_ds (_idxs_us idxs_ds)) ∨
      ((∀ lvl ∈ network_tree (pit_indices idxs_ds) (_idxs_us idxs_ds), i ∉ lvl) ∧
        i ∈ loop_indices idxs_ds (_idxs_us idxs_ds)) := by
  intro i hi
  have h1 := _idxs_us_entries idxs_ds
  have hex0 : ∃ m, frontiers (_idxs_us idxs_ds) (pit_indices idxs_ds) (m + 1) = [] := by
    rcases frontiers_exists_empty idxs_ds (_idxs_us idxs_ds) h1 with ⟨m, _, hm⟩
    exact ⟨m, hm⟩
  have hm : frontiers (_idxs_us idxs_ds) (pit_indices idxs_ds) (Nat.find hex0 + 1) = [] :=
    Nat.find_spec hex0
  have hmin : ∀ k < Nat.find hex0,
      frontiers (_idxs_us idxs_ds) (pit_indices idxs_ds) (k + 1) ≠ [] :=
    fun k hk => Nat.find_min hex0 hk
  have hmle : Nat.find hex0 ≤ idxs_ds.length := by
    rcases frontiers_exists_empty idxs_ds (_idxs_us idxs_ds) h1 with ⟨m0, hm0le, hm0⟩
    exact le_trans (Nat.find_min' hex0 hm0) hm0le
  have htree : network_tree (pit_indices idxs_ds) (_idxs_us idxs_ds) =
      pit_indices idxs_ds :: (List.range (Nat.find hex0)).map
        (fun k => frontiers (_idxs_us idxs_ds) (pit_indices idxs_ds) (k + 1)) := by
    rw [network_tree]
    congr 1
    exact networkTreeGo_eq (_idxs_us idxs_ds) (Nat.find hex0)
      ((_idxs_us idxs_ds).length + 1) (pit_indices idxs_ds)
      (by rw [_idxs_us_length]; omega) hm hmin
  have huniq : ∀ p q, i ∈ frontiers (_idxs_us idxs_ds) (pit_indices idxs_ds) p →
      i ∈ frontiers (_idxs_us idxs_ds) (pit_indices idxs_ds) q → p = q := by
    intro p q hp hq
    by_contra hne
    rcases Nat.lt_or_ge p q with hlt | hge
    · exact frontiers_disjoint idxs_ds (_idxs_us idxs_ds) h1 p q i hlt hp hq
    · exact frontiers_disjoint idxs_ds (_idxs_us idxs_ds) h1 q p i (by omega) hq hp
  by_cases hre : reachable (_idxs_us idxs_ds) (pit_indices idxs_ds) i
  · left
    have hnotloop : i ∉ loop_indices idxs_ds (_idxs_us idxs_ds) := by
      rw [loop_indices_char idxs_ds (_idxs_us idxs_ds) hn h1 i]
      intro ⟨_, hnr, _⟩
      exact hnr hre
    refine ⟨?_, hnotloop⟩
    rcases hre with ⟨k0, hk0⟩
    have hk0le : k0 ≤ Nat.find hex0 := by
      by_contra hgt
      push_neg at hgt
      have hkempty : frontiers (_idxs_us idxs_ds) (pit_indices idxs_ds) k0 = [] :=
        frontiers_empty_stable (_idxs_us idxs_ds) (pit_indices idxs_ds) hm k0
          (by omega)
      rw [hkempty] at hk0
      exact List.not_mem_nil i hk0
    rw [htree, List.countP_cons]
    cases k0 with
    | zero =>
      have hk0' : i ∈ pit_indices idxs_ds := hk0
      have hhead : (decide (i ∈ pit_indices idxs_ds)) = true := by
        simp [hk0']
      have htail : ((List.range (Nat.find hex0)).map
          (fun k => frontiers (_idxs_us idxs_ds) (pit_indices idxs_ds) (k + 1))).countP
          (fun lvl => decide (i ∈ lvl)) = 0 := by
        rw [List.countP_eq_zero]
        intro lvl hlvl
        rcases List.mem_map.mp hlvl with ⟨k, _, hkeq⟩
        rw [decide_eq_true_iff]
        intro hmem
        rw [← hkeq] at hmem
        have := huniq 0 (k + 1) hk0 hmem
        omega
      rw [htail, hhead]
      simp
    | succ k' =>
      have hk'm : k' < Nat.find hex0 := by omega
      have hhead : (decide (i ∈ pit_indices idxs_ds)) = false := by
        rw [decide_eq_false_iff_not]
        intro hp
        have := huniq 0 (k' + 1) hp hk0
        omega
      have htail : ((List.range (Nat.find hex0)).map
          (fun k => frontiers (_idxs_us idxs_ds) (pit_indices idxs_ds) (k + 1))).countP
          (fun lvl => decide (i ∈ lvl)) = 1 := by
        rw [List.countP_map]
        have hcongr : ∀ x ∈ List.range (Nat.find hex0),
            (((fun lvl => decide (i ∈ lvl)) ∘
              (fun k => frontiers (_idxs_us idxs_ds) (pit_indices idxs_ds) (k + 1))) x
              = true) ↔ ((x == k') = true) := by
          intro x _
          simp only [Function.comp, decide_eq_true_iff, beq_iff_eq]
          constructor
          · intro hmem
            have := huniq (x + 1) (k' + 1) hmem hk0
            omega
          · intro hxe
            rw [hxe]
            exact hk0
        rw [List.countP_congr hcongr]
        have hcnt : List.countP (fun x => x == k') (List.range (Nat.find hex0)) =
            (List.range (Nat.find hex0)).count k' := rfl
        rw [hcnt]
        exact List.count_eq_one_of_mem (List.nodup_range _) (List.mem_range.mpr hk'm)
      rw [hhead, htail]
      simp
  · right
    have hloop : i ∈ loop_indices idxs_ds (_idxs_us idxs_ds) := by
      rw [loop_indices_char idxs_ds (_idxs_us idxs_ds) hn h1 i]
      refine ⟨hi, hre, ?_⟩
      have := nth_lt hwf hi
      omega
    refine ⟨?_, hloop⟩
    intro lvl hlvl hmem
    rw [htree] at hlvl
    rcases List.mem_cons.mp hlvl with hl | hl
    · rw [hl] at hmem
      exact hre ⟨0, hmem⟩
    · rcases List.mem_map.mp hl with ⟨k, _, hkeq⟩
      rw [← hkeq] at hmem
      exact hre ⟨k + 1, hmem⟩

/-- C1 witness: a concrete instantiation of `C1_tree_loop_partition` on the
forest `[1, 2, 2]` at cell 0. -/
theorem C1_tree_loop_partition_witness :
    (((network_tree (pit_indices [1, 2, 2]) (_idxs_us [1, 2, 2])).countP
        (fun lvl => decide (0 ∈ lvl)) = 1) ∧
      0 ∉ loop_indices [1, 2, 2] (_idxs_us [1, 2, 2])) ∨
    ((∀ lvl ∈ network_tree (pit_indices [1, 2, 2]) (_idxs_us [1, 2, 2]), 0 ∉ lvl) ∧
      0 ∈ loop_indices [1, 2, 2] (_idxs_us [1, 2, 2])) :=
  C1_tree_loop_partition [1, 2, 2] (by decide) (by decide) 0 (by decide)
